import Mathlib

/-!
Verification of the `bytecode_graph` instruction-graph editor
(`src/bytecode_graph/bytecode_graph.py`), a Python 2 library that decodes a
CPython 2.7 bytecode stream into a doubly linked instruction graph, supports
structural mutation, and re-encodes the stream together with its debug line
table (`co_lnotab`).

Modelling conventions for the shallow embedding:
- A Python byte string is a `List Nat` of byte values (each `< 256` where the
  claims quantify over byte streams).
- The doubly linked list of `Bytecode` nodes (linked by `prev`/`next`, with
  `head` the first node) is modelled as the `List BC` of nodes in `next`
  order; node identity (Python object identity) is an explicit `id : Nat`
  field, and `target`/`xrefs` store node ids.  All pointer surgery in the
  source (`add_node`, `delete_node`) performs exact list splices, so list
  removal/traversal is an exact model.
- The `self.bytecodes` dict (address -> node) is an association list
  `List (Nat × Nat)` from address to node id, first match wins.
- A Python exception (KeyError, IndexError, TypeError, AttributeError,
  struct.error) is `none` in an `Option` result; a function that can raise
  returns `Option _`.
- `ord(b1) | (ord(b2) << 8)` is modelled as `b1 + b2 * 256`: `ord` always
  yields a value `< 256`, so the bitwise or of the two disjoint byte fields
  equals their sum.  Likewise `& 0xff` is `% 256` and `>> 8` is `/ 256`.
-/

/-- `dis.HAVE_ARGUMENT` in CPython 2.7. -/
def HAVE_ARGUMENT : Nat := 90

/-- `dis.hasjrel` in CPython 2.7: FOR_ITER, JUMP_FORWARD, SETUP_LOOP,
SETUP_EXCEPT, SETUP_FINALLY, SETUP_WITH. -/
def hasjrel : List Nat := [93, 110, 120, 121, 122, 143]

/-- `dis.hasjabs` in CPython 2.7: JUMP_IF_FALSE_OR_POP, JUMP_IF_TRUE_OR_POP,
JUMP_ABSOLUTE, POP_JUMP_IF_FALSE, POP_JUMP_IF_TRUE, CONTINUE_LOOP. -/
def hasjabs : List Nat := [111, 112, 113, 114, 115, 119]

/-- One `Bytecode` node of the graph (class `Bytecode`).  `id` models Python
object identity (stable across mutation); `prev`/`next` are implicit in the
position of the node in the graph's node list. -/
structure BC where
  id : Nat
  opcode : Nat
  oparg : Option Int
  addr : Nat
  lnotab : Option Int
  target : Option Nat
  xrefs : List Nat
deriving Repr, DecidableEq

/-- `Bytecode.len`: 1 for no argument, 3 for argument. -/
def BC.len (b : BC) : Nat :=
  if b.opcode < HAVE_ARGUMENT then 1 else 3

/-- `Bytecode.bin`: `struct.pack("<BH", opcode, oparg)` for an
argument-taking opcode, `struct.pack("<B", opcode)` otherwise; `none` models
`struct.error`/`TypeError` for out-of-range or missing values. -/
def BC.bin (b : BC) : Option (List Nat) :=
  if b.opcode < HAVE_ARGUMENT then
    if b.opcode < 256 then some [b.opcode] else none
  else
    match b.oparg with
    | none => none
    | some v =>
      if b.opcode < 256 ∧ 0 ≤ v ∧ v < 65536 then
        some [b.opcode, v.toNat % 256, v.toNat / 256]
      else none

/-- `Bytecode.get_target_addr`: `addr + oparg + len` for a relative jump,
`oparg` for an absolute jump, `None` otherwise.  (The source reads
`self.oparg` here; every jump opcode is `≥ HAVE_ARGUMENT`, so `oparg` is
present on any decoded jump node.) -/
def BC.get_target_addr (b : BC) : Option Int :=
  let r := if b.opcode ∈ hasjrel then
             b.oparg.map (fun v => (b.addr : Int) + v + b.len) else none
  if b.opcode ∈ hasjabs then b.oparg else r

/-- The graph (`class BytecodeGraph`).  `co_lnotab`/`co_firstlineno` are the
line-table bytes and first line number of the wrapped code object. -/
structure Graph where
  base : Nat
  co_firstlineno : Int
  co_lnotab : List Nat
  nodes : List BC
  bytecodes : List (Nat × Nat)
deriving Repr, DecidableEq

instance : Inhabited Graph := ⟨⟨0, 0, [], [], []⟩⟩

/-- Dict lookup `d[k]` on an address-keyed association list. -/
def lookupA (d : List (Nat × Nat)) (k : Nat) : Option Nat :=
  (d.find? (fun p => p.1 = k)).map (fun p => p.2)

/-- Find the node with the given identity. -/
def findNode (ns : List BC) (i : Nat) : Option BC :=
  ns.find? (fun b => b.id = i)

/-- Mutate the node with the given identity in place. -/
def updNode (ns : List BC) (i : Nat) (f : BC → BC) : List BC :=
  ns.map (fun b => if b.id = i then f b else b)

/-- The id of the node immediately following node `i` (its `next` pointer),
`none` if `i` is the last node or absent. -/
def succId (ns : List BC) (i : Nat) : Option Nat :=
  match ns with
  | [] => none
  | b :: rest => if b.id = i then (rest.head?).map (fun c => c.id)
                 else succId rest i

/-- `Bytecode.__init__`: reads the opcode byte and, for an argument-taking
opcode, the two-byte little-endian operand; `none` models the IndexError on
a truncated buffer. -/
def mkBytecode (idv addr : Nat) (buffer : List Nat) : Option BC :=
  match buffer with
  | [] => none
  | b0 :: rest =>
    if HAVE_ARGUMENT ≤ b0 then
      match rest with
      | b1 :: b2 :: _ =>
        some ⟨idv, b0, some ((b1 : Int) + (b2 : Int) * 256), addr, none, none, []⟩
      | _ => none
    else
      some ⟨idv, b0, none, addr, none, none, []⟩

/-- The `while offset < len(self.code.co_code)` loop of `parse_bytecode`.
The accumulator `dict` is `self.bytecodes` (address to node, in insertion
order, which is also list order of the linked list being built).  The step
size is read back out of the dict at key `offset` — exactly as the source
does (`self.bytecodes[offset].len()`), which raises KeyError whenever
`base ≠ 0` since nodes are stored at key `base + offset`.  Returns the final
dict and the list of recorded candidate jump targets.  `fuel` bounds the
iteration count; every stored node has `len ≥ 1`, so `code.length` steps
always suffice. -/
def parseLoop (code : List Nat) (base : Nat) :
    Nat → Nat → Nat → List (Nat × BC) → Option (List (Nat × BC) × List Int)
  | 0, off, _, dict =>
    if off < code.length then none else some (dict, [])
  | fuel+1, off, idv, dict =>
    if off < code.length then
      match mkBytecode idv (base + off) (code.drop off) with
      | none => none
      | some bc =>
        let dict' := dict ++ [(base + off, bc)]
        match dict'.find? (fun p => p.1 = off) with
        | none => none
        | some p =>
          match parseLoop code base fuel (off + p.2.len) (idv+1) dict' with
          | none => none
          | some (d, ts) =>
            some (d, match bc.get_target_addr with
                     | some t => t :: ts
                     | none => ts)
    else some (dict, [])

/-- The body of `apply_labels` for one resolved label value: dict lookup
(KeyError is `none`), de-duplicated append of the referrer to the target's
`xrefs`, and assignment of `current.target`.  When the dict maps the label
to an object no longer in the node list the source mutates that detached
object, which is unobservable; we only record `current.target`. -/
def labelsApply (g : Graph) (cur : BC) (label : Int) : Option Graph :=
  if 0 ≤ label then
    match lookupA g.bytecodes label.toNat with
    | none => none
    | some tid =>
      let ns1 := updNode g.nodes tid
        (fun t => if cur.id ∈ t.xrefs then t
                  else { t with xrefs := t.xrefs ++ [cur.id] })
      some { g with nodes := updNode ns1 cur.id
                      (fun c => { c with target := some tid }) }
  else some g

/-- One iteration of the second `apply_labels` loop: compute the label of
`cur` and resolve it.  A relative jump with a missing operand would raise
(`None + int`); an absolute jump with a missing operand yields `label =
None`, and in Python 2 `None >= 0` is `False`, so the node is skipped. -/
def labelsStep (g : Graph) (cur : BC) : Option Graph :=
  if HAVE_ARGUMENT ≤ cur.opcode then
    if cur.opcode ∈ hasjrel then
      match cur.oparg with
      | none => none
      | some v => labelsApply g cur ((cur.addr : Int) + v + cur.len)
    else if cur.opcode ∈ hasjabs then
      match cur.oparg with
      | none => some g
      | some v => labelsApply g cur v
    else some g
  else some g

/-- The second `apply_labels` loop, iterating the linked list by node
identity snapshot (the loop never changes list membership or order, only
`target`/`xrefs` fields, so the snapshot matches the live traversal). -/
def labelsFold (g : Graph) : List Nat → Option Graph
  | [] => some g
  | i :: rest =>
    match findNode g.nodes i with
    | none => labelsFold g rest
    | some cur =>
      match labelsStep g cur with
      | none => none
      | some g' => labelsFold g' rest

/-- `BytecodeGraph.apply_labels` (with the default `start=None`): clear every
node's `xrefs`/`target`, then resolve each jump and record the inverse
cross-references. -/
def apply_labels (g : Graph) : Option Graph :=
  let g0 : Graph :=
    { g with nodes := g.nodes.map (fun b => { b with xrefs := [], target := none }) }
  labelsFold g0 (g0.nodes.map (fun b => b.id))

/-- `BytecodeGraph.parse_bytecode`: run the decode loop, report every
candidate target that is not an instruction boundary (`print "Nonlinear
issue ..."`, returned here as the first component), set `self.head =
self.bytecodes[self.base]` (KeyError is `none`), then invoke `apply_labels`.
The node list of the produced graph is the dict's values in insertion order,
which is exactly the linked list built by the loop (the first node is at key
`base`, so `head` is the first node). -/
def parse_bytecode (code : List Nat) (cl : List Nat) (fl : Int) (base : Nat) :
    List Int × Option Graph :=
  match parseLoop code base code.length 0 0 [] with
  | none => ([], none)
  | some (dict, targets) =>
    let diags := targets.filter
      (fun t => dict.all (fun p => ((p.1 : Int) ≠ t)))
    let g0 : Graph :=
      ⟨base, fl, cl, dict.map (fun p => p.2),
        dict.map (fun p => (p.1, p.2.id))⟩
    match lookupA g0.bytecodes base with
    | none => (diags, none)
    | some _ =>
      match apply_labels g0 with
      | none => (diags, none)
      | some g1 => (diags, some g1)

/-- The even-index bytes `co_lnotab[0::2]` (byte increments). -/
def evenBytes : List Nat → List Nat
  | [] => []
  | [a] => [a]
  | a :: _ :: t => a :: evenBytes t

/-- The odd-index bytes `co_lnotab[1::2]` (line increments). -/
def oddBytes : List Nat → List Nat
  | [] => []
  | [_] => []
  | _ :: b :: t => b :: oddBytes t

/-- The cumulative `(addr, lineno)` pairs built by the first loop of
`apply_lineno`. -/
def cumLinenos : Nat → Int → List (Nat × Nat) → List (Nat × Int)
  | _, _, [] => []
  | addr, line, (bi, li) :: rest =>
    (addr + bi, line + li) :: cumLinenos (addr + bi) (line + li) rest

/-- The per-node loop of `apply_lineno`, threading `current_addr`,
`current_lineno`, `next_lineno` and the remaining pairs. -/
def applyLinenoGo : List BC → Nat → Int → Int → List (Nat × Int) → List BC
  | [], _, _, _, _ => []
  | x :: rest, ca, cl, nl, rem =>
    if ca ≤ x.addr then
      match rem with
      | (a, l) :: rem' =>
        { x with lnotab := some nl } :: applyLinenoGo rest a nl l rem'
      | [] =>
        { x with lnotab := some nl } :: applyLinenoGo rest ca nl nl []
    else
      { x with lnotab := some cl } :: applyLinenoGo rest ca cl nl rem

/-- `BytecodeGraph.apply_lineno`: decode `co_lnotab` into per-node line
numbers.  An empty pair list returns the graph untouched; a single pair
makes the second `linenos.pop(0)` raise IndexError (`none`). -/
def apply_lineno (g : Graph) : Option Graph :=
  let pairs := (evenBytes g.co_lnotab).zip (oddBytes g.co_lnotab)
  match cumLinenos g.base g.co_firstlineno pairs with
  | [] => some g
  | [_] => none
  | (_, l0) :: (a1, l1) :: rest =>
    some { g with nodes := applyLinenoGo g.nodes a1 l0 l1 rest }

/-- `BytecodeGraph.__init__`: `parse_bytecode()` then `apply_lineno()`,
carrying the nonlinear-jump diagnostics out of `parse_bytecode`. -/
def graphInit (code : List Nat) (cl : List Nat) (fl : Int) (base : Nat) :
    List Int × Option Graph :=
  match parse_bytecode code cl fl base with
  | (d, none) => (d, none)
  | (d, some g) => (d, apply_lineno g)

/-- One iteration of `patch_opargs`: skip argument-less opcodes, patch a
relative jump to `target.addr - (addr + len)` and an absolute jump to
`target.addr`.  A `None` target raises AttributeError (`none`); a `target`
pointing at an object no longer in the node list is likewise modelled as a
failure (unreachable from the states the claims quantify over). -/
def patchStep (g : Graph) (cur : BC) : Option Graph :=
  if cur.opcode < HAVE_ARGUMENT then some g
  else if cur.opcode ∈ hasjrel then
    match cur.target with
    | none => none
    | some tid =>
      match findNode g.nodes tid with
      | none => none
      | some t =>
        let ns := updNode g.nodes cur.id (fun c =>
          { c with oparg := some ((t.addr : Int) - ((cur.addr : Int) + cur.len)) })
        some { g with nodes := ns }
  else if cur.opcode ∈ hasjabs then
    match cur.target with
    | none => none
    | some tid =>
      match findNode g.nodes tid with
      | none => none
      | some t =>
        let ns := updNode g.nodes cur.id (fun c =>
          { c with oparg := some (t.addr : Int) })
        some { g with nodes := ns }
  else some g

/-- The `patch_opargs` loop over the node list, by identity snapshot (the
loop only writes `oparg` fields, never list membership or order). -/
def patchFold (g : Graph) : List Nat → Option Graph
  | [] => some g
  | i :: rest =>
    match findNode g.nodes i with
    | none => patchFold g rest
    | some cur =>
      match patchStep g cur with
      | none => none
      | some g' => patchFold g' rest

/-- `BytecodeGraph.patch_opargs` (with the default `start=None`). -/
def patch_opargs (g : Graph) : Option Graph :=
  patchFold g (g.nodes.map (fun b => b.id))

/-- The re-addressing walk of `refactor`: assign each node `addr = offset`
(running from `base`, advancing by the node's length) and record
`new_bytecodes[offset] = node`. -/
def reindexGo : List BC → Nat → List BC × List (Nat × Nat)
  | [], _ => ([], [])
  | b :: rest, off =>
    let b' := { b with addr := off }
    let (ns, d) := reindexGo rest (off + b'.len)
    (b' :: ns, (off, b'.id) :: d)

/-- The state of the graph after the re-addressing walk of `refactor`
(addresses packed from `base`, dict rebuilt). -/
def reindexG (g : Graph) : Graph :=
  let (ns, d) := reindexGo g.nodes g.base
  { g with nodes := ns, bytecodes := d }

/-- `BytecodeGraph.refactor`: re-address every node from `base`, rebuild
`self.bytecodes`, then `patch_opargs()`, then `apply_labels()` — patching
uses the `target` references as they stood before the walk, and
cross-reference resolution runs last. -/
def refactor (g : Graph) : Option Graph :=
  match patch_opargs (reindexG g) with
  | none => none
  | some g2 => apply_labels g2

/-- The loop of `calc_lnotab`, threading `prev_lineno`/`prev_offset`.  A node
whose line equals `prev_lineno` is skipped.  Otherwise the source computes a
clamped line delta into a local (`new_offset = 0xff if new_offset > 0xff
else new_offset`) but never uses it: it packs the raw address delta (so
`struct.pack("BB", ...)` raises for a delta outside 0..255, modelled as
`none`) and the line delta masked to its low byte (`& 0xff`).  A node whose
line was never assigned (`None`) makes `None - int` raise (`none`). -/
def lnotabGo : List BC → Int → Nat → Option (List Nat)
  | [], _, _ => some []
  | b :: rest, prevLine, prevOff =>
    match b.lnotab with
    | none => none
    | some ln =>
      if ln = prevLine then lnotabGo rest prevLine prevOff
      else
        let bd : Int := (b.addr : Int) - (prevOff : Int)
        if 0 ≤ bd ∧ bd ≤ 255 then
          match lnotabGo rest ln b.addr with
          | none => none
          | some l => some (bd.toNat :: ((ln - prevLine).emod 256).toNat :: l)
        else none

/-- `BytecodeGraph.calc_lnotab`: encode the per-node line numbers back into
a `co_lnotab` byte list, starting from `co_firstlineno` and `head.addr`.
An empty graph dereferences `self.head.addr` on `None` (`none`). -/
def calc_lnotab (g : Graph) : Option (List Nat) :=
  match g.nodes with
  | [] => none
  | h :: _ => lnotabGo g.nodes g.co_firstlineno h.addr

/-- The serialization loop of `get_code`: concatenate `x.bin()` over the
node list. -/
def serializeGo : List BC → Option (List Nat)
  | [] => some []
  | b :: rest =>
    match b.bin with
    | none => none
    | some bs =>
      match serializeGo rest with
      | none => none
      | some l => some (bs ++ l)

/-- `BytecodeGraph.get_code` (with the default `start=None`): `refactor()`,
then `calc_lnotab()`, then serialize the node list; the result is the
`(co_code, co_lnotab)` pair of the new code object (the remaining fields are
copied through from the wrapped code object unchanged). -/
def get_code (g : Graph) : Option (List Nat × List Nat) :=
  match refactor g with
  | none => none
  | some g1 =>
    match calc_lnotab g1 with
    | none => none
    | some l =>
      match serializeGo g1.nodes with
      | none => none
      | some c => some (c, l)

/-- `BytecodeGraph.delete_node`: redirect every referrer in `node.xrefs` to
`node.next` (appending it to `node.next.xrefs` when a successor exists),
splice the node out of the linked list (advancing `head` when needed), and
`del self.bytecodes[node.addr]` (KeyError is `none`).  The node is passed by
identity; a missing identity has no Python counterpart and is `none`. -/
def delete_node (g : Graph) (i : Nat) : Option Graph :=
  match findNode g.nodes i with
  | none => none
  | some node =>
    let nid := succId g.nodes i
    let ns1 := node.xrefs.foldl (fun ns x =>
      let ns' := updNode ns x (fun b => { b with target := nid })
      match nid with
      | some m => updNode ns' m (fun b => { b with xrefs := b.xrefs ++ [x] })
      | none => ns') g.nodes
    let ns2 := ns1.eraseP (fun b => b.id = i)
    match lookupA g.bytecodes node.addr with
    | none => none
    | some _ =>
      some { g with nodes := ns2,
                    bytecodes := g.bytecodes.filter (fun p => p.1 ≠ node.addr) }

/-- Modelled from the spec: the relocation step order stated in §4.4 — after
re-addressing and rebuilding the lookup, cross-reference resolution runs
first and operand patching runs last.  This is the order the claim under
test asserts; the source's `refactor` runs the two steps the other way
round. -/
def refactor_specOrder (g : Graph) : Option Graph :=
  match apply_labels (reindexG g) with
  | none => none
  | some g2 => patch_opargs g2

/-- Modelled from the spec: the line-table encoder stated by the claim under
test, which clamps both the byte delta and the line delta into 0..255
instead of failing on a large byte delta and masking the line delta. -/
def lnotabClampGo : List BC → Int → Nat → Option (List Nat)
  | [], _, _ => some []
  | b :: rest, prevLine, prevOff =>
    match b.lnotab with
    | none => none
    | some ln =>
      if ln = prevLine then lnotabClampGo rest prevLine prevOff
      else
        let bd : Int := min (max ((b.addr : Int) - (prevOff : Int)) 0) 255
        let ld : Int := min (max (ln - prevLine) 0) 255
        match lnotabClampGo rest ln b.addr with
        | none => none
        | some l => some (bd.toNat :: ld.toNat :: l)

/-- Modelled from the spec: `calc_lnotab` as the claim describes it
(clamping deltas to a single unsigned byte). -/
def calc_lnotab_clamped (g : Graph) : Option (List Nat) :=
  match g.nodes with
  | [] => none
  | h :: _ => lnotabClampGo g.nodes g.co_firstlineno h.addr

/-- The amended description of the source encoder, as a structurally
independent definition: walk the `(addr, line)` projections of the nodes;
emit nothing when the line repeats; otherwise emit the raw address delta
(failing unless it fits one unsigned byte) and the line delta reduced
modulo 256. -/
def lnotabAmendedGo (prevLine : Int) (prevOff : Nat) :
    List (Nat × Option Int) → Option (List Nat)
  | [] => some []
  | (a, ln?) :: rest =>
    match ln? with
    | none => none
    | some ln =>
      if ln = prevLine then lnotabAmendedGo prevLine prevOff rest
      else if (prevOff : Int) ≤ (a : Int) ∧ (a : Int) - prevOff ≤ 255 then
        (lnotabAmendedGo ln a rest).map
          (fun l => (a - prevOff) :: (((ln - prevLine) % 256).toNat :: l))
      else none

/-- The amended line-table encoder over a graph. -/
def calc_lnotab_amended (g : Graph) : Option (List Nat) :=
  match g.nodes with
  | [] => none
  | h :: _ =>
    lnotabAmendedGo g.co_firstlineno h.addr
      (g.nodes.map (fun b => (b.addr, b.lnotab)))

/-- Addresses packed from a running offset: each node sits exactly at the
running offset, which advances by that node's length — the "no gaps or
overlaps" shape of invariant 1 of the spec. -/
def packedFrom : Nat → List BC → Bool
  | _, [] => true
  | off, b :: rest => b.addr = off && packedFrom (off + b.len) rest

/-- The fields of a node that `apply_labels` never writes (identity, opcode,
operand, address, line). -/
def coreL (b : BC) : Nat × Nat × Option Int × Nat × Option Int :=
  (b.id, b.opcode, b.oparg, b.addr, b.lnotab)

/-- The fields of a node that `patch_opargs` never writes (everything but
the operand). -/
def coreP (b : BC) : Nat × Nat × Nat × Option Int × Option Nat × List Nat :=
  (b.id, b.opcode, b.addr, b.lnotab, b.target, b.xrefs)

/-- The fields of a node that `apply_lineno` never writes (everything but
the line). -/
def coreN (b : BC) : Nat × Nat × Option Int × Nat × Option Nat × List Nat :=
  (b.id, b.opcode, b.oparg, b.addr, b.target, b.xrefs)

/-- The fields of a node that the re-addressing walk of `refactor` never
writes (everything but the address). -/
def coreR (b : BC) : Nat × Nat × Option Int × Option Int × Option Nat × List Nat :=
  (b.id, b.opcode, b.oparg, b.lnotab, b.target, b.xrefs)

/-- The label value `apply_labels` computes for a node (`none` when the node
is skipped: argument-less opcode, argument-taking non-jump opcode, or an
absolute jump whose operand is missing). -/
def labelOf (b : BC) : Option Int :=
  if HAVE_ARGUMENT ≤ b.opcode then
    if b.opcode ∈ hasjrel then
      b.oparg.map (fun v => (b.addr : Int) + v + b.len)
    else if b.opcode ∈ hasjabs then b.oparg
    else none
  else none

/-- The node id a node resolves to under `apply_labels` against the address
dict `D`: the dict entry at its label, when the label exists, is
non-negative and is a key of `D`. -/
def resToD (D : List (Nat × Nat)) (b : BC) : Option Nat :=
  match labelOf b with
  | none => none
  | some l => if 0 ≤ l then lookupA D l.toNat else none

/-- `resToD` by referrer id, resolved against a reference node list. -/
def resOfD (D : List (Nat × Nat)) (ns : List BC) (j : Nat) : Option Nat :=
  match findNode ns j with
  | none => none
  | some b => resToD D b

/-- The closed form of a node's state during the `apply_labels` pass, after
the referrers in `P` (a prefix of the traversal order) have been processed:
its `target` is its own resolution if already processed, and its `xrefs`
are the processed referrers that resolve to it, in traversal order. -/
def FF (D : List (Nat × Nat)) (ns : List BC) (P : List Nat) (b : BC) : BC :=
  { b with target := if b.id ∈ P then resToD D b else none,
           xrefs := P.filter (fun j => resOfD D ns j = some b.id) }

/-- The operand `patch_opargs` writes for a node, resolved against a
reference node list (whose addresses `patch_opargs` never changes): `none`
is the AttributeError on a missing target, `some o` the resulting operand
(`o = b.oparg` for nodes the pass skips). -/
def patchValD (ns : List BC) (b : BC) : Option (Option Int) :=
  if b.opcode < HAVE_ARGUMENT then some b.oparg
  else if b.opcode ∈ hasjrel then
    match b.target with
    | none => none
    | some tid =>
      (findNode ns tid).map (fun t => some ((t.addr : Int) - ((b.addr : Int) + b.len)))
  else if b.opcode ∈ hasjabs then
    match b.target with
    | none => none
    | some tid => (findNode ns tid).map (fun t => some ((t.addr : Int)))
  else some b.oparg

/-- The closed form of a node's state during the `patch_opargs` pass, after
the nodes in `P` have been processed. -/
def PF (ns : List BC) (P : List Nat) (b : BC) : BC :=
  if b.id ∈ P then
    match patchValD ns b with
    | some o => { b with oparg := o }
    | none => b
  else b

/-- Well-formedness of the scan output of `parse_bytecode`: dict keys equal
node addresses and are packed from the running offset, node ids are
sequential, nodes carry the decode-time field values, and operands decode
into the 16-bit range. -/
def entriesOK : Nat → Nat → List (Nat × BC) → Prop
  | _, _, [] => True
  | off, idv, (a, bc) :: rest =>
    a = off ∧ bc.addr = off ∧ bc.id = idv ∧ bc.opcode < 256 ∧
    bc.target = none ∧ bc.xrefs = [] ∧ bc.lnotab = none ∧
    (HAVE_ARGUMENT ≤ bc.opcode → ∃ v, bc.oparg = some v ∧ 0 ≤ v ∧ v < 65536) ∧
    (bc.opcode < HAVE_ARGUMENT → bc.oparg = none) ∧
    entriesOK (off + bc.len) (idv + 1) rest

/-- Pointwise effect of the redirect loop of `delete_node` when the deleted
node has a successor `mid`: every referrer in `L` gets `target := mid`, and
the successor's `xrefs` receives all of `L` in order. -/
def delApply (mid : Nat) (L : List Nat) (b : BC) : BC :=
  { b with target := if b.id ∈ L then some mid else b.target,
           xrefs := if b.id = mid then b.xrefs ++ L else b.xrefs }

/-- Pointwise effect of the redirect loop of `delete_node` when the deleted
node has no successor: every referrer in `L` gets `target := None`. -/
def delApplyN (L : List Nat) (b : BC) : BC :=
  if b.id ∈ L then { b with target := none } else b

/-- Concrete stream: `JUMP_ABSOLUTE 4; NOP; NOP` (0x71 = 113 is
JUMP_ABSOLUTE, 0x09 = 9 is NOP in CPython 2.7). -/
def exCode : List Nat := [113, 4, 0, 9, 9]

/-- The graph decoded from `exCode` (empty line table). -/
def exG : Graph := ((graphInit exCode [] 1 0).2).getD default

/-- `exG` with its middle NOP (id 1) deleted and not yet relocated: the
jump's operand still holds the stale pre-deletion value. -/
def exGdel : Graph := (delete_node exG 1).getD default

/-- Concrete stream: `JUMP_FORWARD 0; NOP; NOP` — the jump targets the
first NOP (address 3), which has the second NOP (address 4) after it. -/
def exC5code : List Nat := [110, 0, 0, 9, 9]

/-- The graph decoded from `exC5code`. -/
def exC5 : Graph := ((graphInit exC5code [] 1 0).2).getD default

/-- Eleven one-byte NOPs: the byte stream of the round-trip counterexample. -/
def c1code : List Nat := List.replicate 11 9

/-- A one-jump graph whose target was never resolved (`target = None`). -/
def exG2 : Graph := ⟨0, 1, [], [⟨0, 110, some 0, 0, some 1, none, []⟩], [(0, 0)]⟩

/-- A two-node graph whose second node jumps ahead 300 source lines. -/
def exG9 : Graph :=
  ⟨0, 1, [],
   [⟨0, 9, none, 0, some 1, none, []⟩, ⟨1, 9, none, 1, some 301, none, []⟩],
   [(0, 0), (1, 1)]⟩

theorem findNode_map_of_id (f : BC → BC) (hf : ∀ b, (f b).id = b.id) :
    ∀ (ns : List BC) (i : Nat), findNode (ns.map f) i = (findNode ns i).map f := by
  intro ns i
  induction ns with
  | nil => rfl
  | cons b t ih =>
    by_cases hb : b.id = i
    · simp [findNode, List.find?_cons_of_pos, hf, hb]
    · have h1 : ¬ ((f b).id = i) := by rw [hf]; exact hb
      simp only [List.map_cons, findNode] at *
      rw [List.find?_cons_of_neg _ (by simpa using h1),
          List.find?_cons_of_neg _ (by simpa using hb)]
      exact ih

theorem updNode_map (ns : List BC) (f : BC → BC) (i : Nat) (h : BC → BC)
    (hf : ∀ b, (f b).id = b.id) :
    updNode (ns.map f) i h = ns.map (fun b => if b.id = i then h (f b) else f b) := by
  simp only [updNode, List.map_map]
  refine List.map_congr_left (fun b _ => ?_)
  simp only [Function.comp_apply, hf b]

theorem findNode_mem {ns : List BC} {i : Nat} {b : BC} (h : findNode ns i = some b) :
    b ∈ ns ∧ b.id = i := by
  refine ⟨List.mem_of_find?_eq_some h, ?_⟩
  have := List.find?_some h
  simpa using this

theorem findNode_of_nodup {ns : List BC} (hN : (ns.map (fun b => b.id)).Nodup)
    {b : BC} (hb : b ∈ ns) : findNode ns b.id = some b := by
  induction ns with
  | nil => cases hb
  | cons a t ih =>
    rcases List.mem_cons.mp hb with h | h
    · subst h; simp [findNode, List.find?_cons_of_pos]
    · have hN' := hN
      simp only [List.map_cons, List.nodup_cons] at hN'
      have hne : a.id ≠ b.id := by
        intro he
        exact hN'.1 (he ▸ List.mem_map_of_mem (fun x => x.id) h)
      simp only [findNode] at *
      rw [List.find?_cons_of_neg _ (by simpa using hne)]
      exact ih hN'.2 h

theorem findNode_eq_of_nodup {ns : List BC} (hN : (ns.map (fun b => b.id)).Nodup)
    {b b' : BC} (hb : b ∈ ns) (hid : findNode ns b.id = some b') : b' = b := by
  rw [findNode_of_nodup hN hb] at hid
  exact (Option.some_inj.mp hid).symm

theorem len_congr {b c : BC} (h : b.opcode = c.opcode) : b.len = c.len := by
  simp [BC.len, h]

theorem bin_congr {b c : BC} (h1 : b.opcode = c.opcode) (h2 : b.oparg = c.oparg) :
    b.bin = c.bin := by
  simp [BC.bin, h1, h2]

theorem serializeGo_congr : ∀ {ns ns' : List BC},
    ns'.map (fun b => (b.opcode, b.oparg)) = ns.map (fun b => (b.opcode, b.oparg)) →
    serializeGo ns' = serializeGo ns := by
  intro ns
  induction ns with
  | nil =>
    intro ns' h
    rw [List.map_nil, List.map_eq_nil_iff] at h
    simp [h, serializeGo]
  | cons b t ih =>
    intro ns' h
    match ns' with
    | [] => simp at h
    | c :: t' =>
      simp only [List.map_cons, List.cons.injEq, Prod.mk.injEq] at h
      obtain ⟨⟨h1, h2⟩, h3⟩ := h
      simp only [serializeGo, bin_congr h1 h2, ih h3]

theorem packedFrom_congr : ∀ {ns ns' : List BC},
    ns'.map (fun b => (b.opcode, b.addr)) = ns.map (fun b => (b.opcode, b.addr)) →
    ∀ off, packedFrom off ns' = packedFrom off ns := by
  intro ns
  induction ns with
  | nil =>
    intro ns' h off
    rw [List.map_nil, List.map_eq_nil_iff] at h
    simp [h]
  | cons b t ih =>
    intro ns' h off
    match ns' with
    | [] => simp at h
    | c :: t' =>
      simp only [List.map_cons, List.cons.injEq, Prod.mk.injEq] at h
      obtain ⟨⟨h1, h2⟩, h3⟩ := h
      simp only [packedFrom, h2, len_congr h1, ih h3]

theorem updNode_map_proj {α : Type} (p : BC → α) (ns : List BC) (i : Nat)
    (f : BC → BC) (hf : ∀ b, p (f b) = p b) :
    (updNode ns i f).map p = ns.map p := by
  simp only [updNode, List.map_map]
  refine List.map_congr_left (fun b _ => ?_)
  by_cases hb : b.id = i <;> simp [hb, hf]

theorem labelsApply_pres {g g' : Graph} {cur : BC} {label : Int}
    (h : labelsApply g cur label = some g') :
    g'.nodes.map coreL = g.nodes.map coreL ∧ g'.base = g.base ∧
    g'.bytecodes = g.bytecodes ∧ g'.co_firstlineno = g.co_firstlineno ∧
    g'.co_lnotab = g.co_lnotab := by
  unfold labelsApply at h
  split at h
  · cases hL : lookupA g.bytecodes label.toNat with
    | none => rw [hL] at h; cases h
    | some tid =>
      rw [hL] at h
      dsimp only at h
      injection h with h
      subst h
      refine ⟨?_, rfl, rfl, rfl, rfl⟩
      dsimp only
      rw [updNode_map_proj coreL _ cur.id (fun c => { c with target := some tid })
            (fun b => rfl),
          updNode_map_proj coreL _ tid _ ?_]
      intro b
      by_cases hx : cur.id ∈ b.xrefs <;> simp [hx, coreL]
  · cases h; exact ⟨rfl, rfl, rfl, rfl, rfl⟩

theorem labelsStep_pres {g g' : Graph} {cur : BC} (h : labelsStep g cur = some g') :
    g'.nodes.map coreL = g.nodes.map coreL ∧ g'.base = g.base ∧
    g'.bytecodes = g.bytecodes ∧ g'.co_firstlineno = g.co_firstlineno ∧
    g'.co_lnotab = g.co_lnotab := by
  unfold labelsStep at h
  split at h
  · split at h
    · cases hop : cur.oparg with
      | none => rw [hop] at h; cases h
      | some v => rw [hop] at h; dsimp only at h; exact labelsApply_pres h
    · split at h
      · cases hop : cur.oparg with
        | none =>
          rw [hop] at h; dsimp only at h; cases h
          exact ⟨rfl, rfl, rfl, rfl, rfl⟩
        | some v => rw [hop] at h; dsimp only at h; exact labelsApply_pres h
      · cases h; exact ⟨rfl, rfl, rfl, rfl, rfl⟩
  · cases h; exact ⟨rfl, rfl, rfl, rfl, rfl⟩

theorem labelsFold_pres : ∀ {ids : List Nat} {g g' : Graph},
    labelsFold g ids = some g' →
    g'.nodes.map coreL = g.nodes.map coreL ∧ g'.base = g.base ∧
    g'.bytecodes = g.bytecodes ∧ g'.co_firstlineno = g.co_firstlineno ∧
    g'.co_lnotab = g.co_lnotab := by
  intro ids
  induction ids with
  | nil => intro g g' h; cases h; exact ⟨rfl, rfl, rfl, rfl, rfl⟩
  | cons i rest ih =>
    intro g g' h
    unfold labelsFold at h
    cases hf : findNode g.nodes i with
    | none => rw [hf] at h; dsimp only at h; exact ih h
    | some cur =>
      rw [hf] at h
      dsimp only at h
      cases hs : labelsStep g cur with
      | none => rw [hs] at h; cases h
      | some g2 =>
        rw [hs] at h
        dsimp only at h
        obtain ⟨p1, p2, p3, p4, p5⟩ := ih h
        obtain ⟨q1, q2, q3, q4, q5⟩ := labelsStep_pres hs
        exact ⟨p1.trans q1, p2.trans q2, p3.trans q3, p4.trans q4, p5.trans q5⟩

theorem apply_labels_pres {g g' : Graph} (h : apply_labels g = some g') :
    g'.nodes.map coreL = g.nodes.map coreL ∧ g'.base = g.base ∧
    g'.bytecodes = g.bytecodes ∧ g'.co_firstlineno = g.co_firstlineno ∧
    g'.co_lnotab = g.co_lnotab := by
  unfold apply_labels at h
  obtain ⟨p1, p2, p3, p4, p5⟩ := labelsFold_pres h
  refine ⟨p1.trans ?_, p2, p3, p4, p5⟩
  simp only [List.map_map]
  refine List.map_congr_left (fun b _ => ?_)
  rfl

theorem patchStep_pres {g g' : Graph} {cur : BC} (h : patchStep g cur = some g') :
    g'.nodes.map coreP = g.nodes.map coreP ∧ g'.base = g.base ∧
    g'.bytecodes = g.bytecodes ∧ g'.co_firstlineno = g.co_firstlineno ∧
    g'.co_lnotab = g.co_lnotab := by
  unfold patchStep at h
  split at h
  · cases h; exact ⟨rfl, rfl, rfl, rfl, rfl⟩
  · split at h
    · cases ht : cur.target with
      | none => rw [ht] at h; cases h
      | some tid =>
        rw [ht] at h
        dsimp only at h
        cases hf : findNode g.nodes tid with
        | none => rw [hf] at h; cases h
        | some t =>
          rw [hf] at h
          dsimp only at h
          injection h with h
          subst h
          exact ⟨updNode_map_proj coreP _ _ _ (fun b => rfl), rfl, rfl, rfl, rfl⟩
    · split at h
      · cases ht : cur.target with
        | none => rw [ht] at h; cases h
        | some tid =>
          rw [ht] at h
          dsimp only at h
          cases hf : findNode g.nodes tid with
          | none => rw [hf] at h; cases h
          | some t =>
            rw [hf] at h
            dsimp only at h
            injection h with h
            subst h
            exact ⟨updNode_map_proj coreP _ _ _ (fun b => rfl), rfl, rfl, rfl, rfl⟩
      · cases h; exact ⟨rfl, rfl, rfl, rfl, rfl⟩

theorem patchFold_pres : ∀ {ids : List Nat} {g g' : Graph},
    patchFold g ids = some g' →
    g'.nodes.map coreP = g.nodes.map coreP ∧ g'.base = g.base ∧
    g'.bytecodes = g.bytecodes ∧ g'.co_firstlineno = g.co_firstlineno ∧
    g'.co_lnotab = g.co_lnotab := by
  intro ids
  induction ids with
  | nil => intro g g' h; cases h; exact ⟨rfl, rfl, rfl, rfl, rfl⟩
  | cons i rest ih =>
    intro g g' h
    unfold patchFold at h
    cases hf : findNode g.nodes i with
    | none => rw [hf] at h; dsimp only at h; exact ih h
    | some cur =>
      rw [hf] at h
      dsimp only at h
      cases hs : patchStep g cur with
      | none => rw [hs] at h; cases h
      | some g2 =>
        rw [hs] at h
        dsimp only at h
        obtain ⟨p1, p2, p3, p4, p5⟩ := ih h
        obtain ⟨q1, q2, q3, q4, q5⟩ := patchStep_pres hs
        exact ⟨p1.trans q1, p2.trans q2, p3.trans q3, p4.trans q4, p5.trans q5⟩

theorem reindexGo_core : ∀ (ns : List BC) (off : Nat),
    (reindexGo ns off).1.map coreR = ns.map coreR := by
  intro ns
  induction ns with
  | nil => intro off; rfl
  | cons b t ih =>
    intro off
    simp only [reindexGo, List.map_cons]
    rw [ih]
    rfl

theorem reindexGo_packed : ∀ (ns : List BC) (off : Nat),
    packedFrom off (reindexGo ns off).1 = true := by
  intro ns
  induction ns with
  | nil => intro off; rfl
  | cons b t ih =>
    intro off
    simp only [reindexGo, packedFrom]
    rw [ih]
    simp

theorem reindexGo_dict : ∀ (ns : List BC) (off : Nat),
    (reindexGo ns off).2 = (reindexGo ns off).1.map (fun b => (b.addr, b.id)) := by
  intro ns
  induction ns with
  | nil => intro off; rfl
  | cons b t ih =>
    intro off
    simp only [reindexGo, List.map_cons]
    rw [ih]

theorem reindexGo_of_packed : ∀ (ns : List BC) (off : Nat),
    packedFrom off ns = true → (reindexGo ns off).1 = ns := by
  intro ns
  induction ns with
  | nil => intro off _; rfl
  | cons b t ih =>
    intro off hp
    simp only [packedFrom, Bool.and_eq_true, decide_eq_true_eq] at hp
    simp only [reindexGo]
    have hb : { b with addr := off } = b := by
      cases b; simp_all
    rw [hb]
    rw [ih _ hp.2]

theorem FF_id (D : List (Nat × Nat)) (ns0 : List BC) (P : List Nat) (b : BC) :
    (FF D ns0 P b).id = b.id := rfl

theorem FF_coreL (D : List (Nat × Nat)) (ns0 : List BC) (P : List Nat) (b : BC) :
    coreL (FF D ns0 P b) = coreL b := rfl

theorem mem_id_unique {ns : List BC} (hN : (ns.map (fun b => b.id)).Nodup)
    {b b' : BC} (hb : b ∈ ns) (hb' : b' ∈ ns) (h : b'.id = b.id) : b' = b := by
  have h1 := findNode_of_nodup hN hb
  have h2 := findNode_of_nodup hN hb'
  rw [h, h1] at h2
  exact (Option.some_inj.mp h2).symm

theorem resOfD_eq {D : List (Nat × Nat)} {ns0 : List BC}
    (hN : (ns0.map (fun b => b.id)).Nodup) {b₀ : BC} (hb₀ : b₀ ∈ ns0) :
    resOfD D ns0 b₀.id = resToD D b₀ := by
  simp [resOfD, findNode_of_nodup hN hb₀]

theorem FF_skip {D : List (Nat × Nat)} {ns0 : List BC}
    (hN : (ns0.map (fun b => b.id)).Nodup) {P : List Nat} {b₀ : BC}
    (hb₀ : b₀ ∈ ns0) (hi : b₀.id ∉ P) (hres : resToD D b₀ = none) :
    ns0.map (FF D ns0 P) = ns0.map (FF D ns0 (P ++ [b₀.id])) := by
  have hro := resOfD_eq hN hb₀ (D := D)
  refine List.map_congr_left (fun b hb => ?_)
  by_cases hbi : b.id = b₀.id
  · have hbb : b = b₀ := mem_id_unique hN hb₀ hb hbi
    subst hbb
    simp [FF, hi, hres, hro, List.filter_append]
  · have hne : ¬ b₀.id = b.id := fun he => hbi he.symm
    simp only [FF, List.filter_append, List.mem_append, List.mem_singleton, hbi,
      or_false, List.filter_cons, List.filter_nil, hro, hres]
    simp [hne]

theorem labelsApply_main {D : List (Nat × Nat)} {ns0 : List BC}
    (hN : (ns0.map (fun b => b.id)).Nodup) {P : List Nat} {b₀ : BC}
    (hb₀ : b₀ ∈ ns0) (hi : b₀.id ∉ P) {g : Graph}
    (hd : g.bytecodes = D) (hg : g.nodes = ns0.map (FF D ns0 P))
    {l : Int} (hl : labelOf b₀ = some l) {g2 : Graph}
    (h : labelsApply g (FF D ns0 P b₀) l = some g2) :
    g2.nodes = ns0.map (FF D ns0 (P ++ [b₀.id])) ∧ g2.bytecodes = D ∧
    g2.base = g.base ∧ g2.co_firstlineno = g.co_firstlineno ∧
    g2.co_lnotab = g.co_lnotab := by
  have hro := resOfD_eq hN hb₀ (D := D)
  unfold labelsApply at h
  split at h
  case isTrue hl0 =>
    cases hL : lookupA g.bytecodes l.toNat with
    | none => rw [hL] at h; cases h
    | some tid =>
      rw [hL] at h
      dsimp only at h
      injection h with h
      subst h
      have hresb : resToD D b₀ = some tid := by
        rw [hd] at hL
        simp [resToD, hl, hl0, hL]
      refine ⟨?_, hd, rfl, rfl, rfl⟩
      dsimp only
      rw [hg]
      simp only [FF_id]
      rw [updNode_map ns0 (FF D ns0 P) tid _ (fun b => rfl)]
      rw [updNode_map ns0 _ b₀.id _ ?hid]
      case hid =>
        intro b
        by_cases hb : b.id = tid
        · simp only [if_pos hb]
          split <;> rfl
        · simp only [if_neg hb, FF_id]
      refine List.map_congr_left (fun b hb => ?_)
      by_cases hbi : b.id = b₀.id
      · have hbb : b = b₀ := mem_id_unique hN hb₀ hb hbi
        rw [hbb]
        have hnotin : b₀.id ∉ (FF D ns0 P b₀).xrefs := by
          intro hmem
          simp only [FF] at hmem
          exact hi (List.mem_filter.mp hmem).1
        by_cases hbt : b₀.id = tid
        · subst hbt
          simp only [if_pos rfl, if_neg hnotin]
          simp [FF, List.filter_append, List.filter_cons, hro, hresb, hi]
        · have hne : ¬ tid = b₀.id := fun he => hbt he.symm
          simp only [if_pos rfl, if_neg hbt]
          simp [FF, List.filter_append, List.filter_cons, hro, hresb, hi, hne]
      · have hnotin : b₀.id ∉ (FF D ns0 P b).xrefs := by
          intro hmem
          simp only [FF] at hmem
          exact hi (List.mem_filter.mp hmem).1
        by_cases hbt : b.id = tid
        · subst hbt
          simp only [if_neg hbi, if_pos rfl, if_neg hnotin]
          simp [FF, List.filter_append, List.filter_cons, hro, hresb, hbi]
        · have hne : ¬ tid = b.id := fun he => hbt he.symm
          simp only [if_neg hbi, if_neg hbt]
          simp [FF, List.filter_append, List.filter_cons, hro, hresb, hbi, hne]
  case isFalse hl0 =>
    injection h with h
    subst h
    refine ⟨?_, hd, rfl, rfl, rfl⟩
    rw [hg]
    exact FF_skip hN hb₀ hi (by simp [resToD, hl, hl0])

theorem FF_opcode (D : List (Nat × Nat)) (ns0 : List BC) (P : List Nat) (b : BC) :
    (FF D ns0 P b).opcode = b.opcode := rfl

theorem FF_oparg (D : List (Nat × Nat)) (ns0 : List BC) (P : List Nat) (b : BC) :
    (FF D ns0 P b).oparg = b.oparg := rfl

theorem FF_addr (D : List (Nat × Nat)) (ns0 : List BC) (P : List Nat) (b : BC) :
    (FF D ns0 P b).addr = b.addr := rfl

theorem FF_len (D : List (Nat × Nat)) (ns0 : List BC) (P : List Nat) (b : BC) :
    (FF D ns0 P b).len = b.len := rfl

theorem labelsStep_main {D : List (Nat × Nat)} {ns0 : List BC}
    (hN : (ns0.map (fun b => b.id)).Nodup) {P : List Nat} {b₀ : BC}
    (hb₀ : b₀ ∈ ns0) (hi : b₀.id ∉ P) {g : Graph}
    (hd : g.bytecodes = D) (hg : g.nodes = ns0.map (FF D ns0 P))
    {g2 : Graph} (h : labelsStep g (FF D ns0 P b₀) = some g2) :
    g2.nodes = ns0.map (FF D ns0 (P ++ [b₀.id])) ∧ g2.bytecodes = D ∧
    g2.base = g.base ∧ g2.co_firstlineno = g.co_firstlineno ∧
    g2.co_lnotab = g.co_lnotab := by
  unfold labelsStep at h
  simp only [FF_opcode, FF_oparg, FF_addr, FF_len] at h
  split at h
  case isTrue hge =>
    split at h
    case isTrue hrel =>
      cases hop : b₀.oparg with
      | none => rw [hop] at h; cases h
      | some v =>
        rw [hop] at h
        dsimp only at h
        refine labelsApply_main hN hb₀ hi hd hg ?_ h
        simp [labelOf, hge, hrel, hop]
    case isFalse hrel =>
      split at h
      case isTrue habs =>
        cases hop : b₀.oparg with
        | none =>
          rw [hop] at h
          dsimp only at h
          injection h with h
          subst h
          refine ⟨?_, hd, rfl, rfl, rfl⟩
          rw [hg]
          exact FF_skip hN hb₀ hi (by simp [resToD, labelOf, hge, hrel, habs, hop])
        | some v =>
          rw [hop] at h
          dsimp only at h
          refine labelsApply_main hN hb₀ hi hd hg ?_ h
          simp [labelOf, hge, hrel, habs, hop]
      case isFalse habs =>
        injection h with h
        subst h
        refine ⟨?_, hd, rfl, rfl, rfl⟩
        rw [hg]
        exact FF_skip hN hb₀ hi (by simp [resToD, labelOf, hge, hrel, habs])
  case isFalse hge =>
    injection h with h
    subst h
    refine ⟨?_, hd, rfl, rfl, rfl⟩
    rw [hg]
    exact FF_skip hN hb₀ hi (by simp [resToD, labelOf, hge])

theorem labelsFold_main {D : List (Nat × Nat)} {ns0 : List BC}
    (hN : (ns0.map (fun b => b.id)).Nodup) :
    ∀ (ids P : List Nat) (g : Graph),
    P ++ ids = ns0.map (fun b => b.id) →
    g.bytecodes = D → g.nodes = ns0.map (FF D ns0 P) →
    ∀ g', labelsFold g ids = some g' →
    g'.nodes = ns0.map (FF D ns0 (P ++ ids)) ∧ g'.bytecodes = D ∧
    g'.base = g.base ∧ g'.co_firstlineno = g.co_firstlineno ∧
    g'.co_lnotab = g.co_lnotab := by
  intro ids
  induction ids with
  | nil =>
    intro P g hP hd hg g' h
    cases h
    exact ⟨by simpa using hg, hd, rfl, rfl, rfl⟩
  | cons i rest ih =>
    intro P g hP hd hg g' h
    have hiMem : i ∈ ns0.map (fun b => b.id) := by
      rw [← hP]; simp
    obtain ⟨b₀, hb₀, hb₀i⟩ := List.mem_map.mp hiMem
    subst hb₀i
    have hNP : (P ++ b₀.id :: rest).Nodup := by rw [hP]; exact hN
    have hiP : b₀.id ∉ P := by
      obtain ⟨-, -, hdisj⟩ := List.nodup_append.mp hNP
      intro hmem
      exact hdisj hmem (List.mem_cons_self _ _)
    have hfind : findNode g.nodes b₀.id = some (FF D ns0 P b₀) := by
      rw [hg, findNode_map_of_id (FF D ns0 P) (fun b => rfl) ns0 b₀.id,
        findNode_of_nodup hN hb₀]
      rfl
    unfold labelsFold at h
    rw [hfind] at h
    dsimp only at h
    cases hs : labelsStep g (FF D ns0 P b₀) with
    | none => rw [hs] at h; cases h
    | some g2 =>
      rw [hs] at h
      dsimp only at h
      obtain ⟨m1, m2, m3, m4, m5⟩ := labelsStep_main hN hb₀ hiP hd hg hs
      have hP' : (P ++ [b₀.id]) ++ rest = ns0.map (fun b => b.id) := by
        simpa [List.append_assoc] using hP
      obtain ⟨c1, c2, c3, c4, c5⟩ := ih (P ++ [b₀.id]) g2 hP' m2 m1 g' h
      refine ⟨by simpa [List.append_assoc] using c1, c2, c3.trans m3,
        c4.trans m4, c5.trans m5⟩

theorem apply_labels_main {g g' : Graph}
    (hN : (g.nodes.map (fun b => b.id)).Nodup)
    (h : apply_labels g = some g') :
    g'.nodes = g.nodes.map
      (FF g.bytecodes g.nodes (g.nodes.map (fun b => b.id))) ∧
    g'.bytecodes = g.bytecodes ∧ g'.base = g.base ∧
    g'.co_firstlineno = g.co_firstlineno ∧ g'.co_lnotab = g.co_lnotab := by
  unfold apply_labels at h
  dsimp only at h
  set ns0c := g.nodes.map (fun b => { b with xrefs := ([] : List Nat), target := (none : Option Nat) }) with hns0c
  have hidc : ns0c.map (fun b => b.id) = g.nodes.map (fun b => b.id) := by
    rw [hns0c, List.map_map]
    rfl
  have hNc : (ns0c.map (fun b => b.id)).Nodup := by rw [hidc]; exact hN
  have hclear : ns0c = ns0c.map (FF g.bytecodes ns0c []) := by
    rw [hns0c, List.map_map]
    refine (List.map_congr_left (fun b _ => ?_)).symm
    simp [FF]
  obtain ⟨c1, c2, c3, c4, c5⟩ :=
    labelsFold_main hNc (ns0c.map (fun b => b.id)) [] { g with nodes := ns0c }
      (by rw [List.nil_append]) rfl hclear g' h
  refine ⟨?_, c2, c3, c4, c5⟩
  rw [c1]
  simp only [List.nil_append, hidc]
  rw [hns0c, List.map_map]
  refine List.map_congr_left (fun b _ => ?_)
  have hres : ∀ j, resOfD g.bytecodes
      (g.nodes.map (fun b => { b with xrefs := ([] : List Nat), target := (none : Option Nat) })) j =
      resOfD g.bytecodes g.nodes j := by
    intro j
    unfold resOfD
    rw [findNode_map_of_id
      (fun b => { b with xrefs := ([] : List Nat), target := (none : Option Nat) })
      (fun b => rfl) g.nodes j]
    cases findNode g.nodes j with
    | none => rfl
    | some c => rfl
  simp only [Function.comp_apply, FF]
  congr 1
  · simp [hres]

theorem PF_id (ns0 : List BC) (P : List Nat) (b : BC) : (PF ns0 P b).id = b.id := by
  unfold PF
  split
  · split <;> rfl
  · rfl

theorem PF_addr (ns0 : List BC) (P : List Nat) (b : BC) :
    (PF ns0 P b).addr = b.addr := by
  unfold PF
  split
  · split <;> rfl
  · rfl

theorem PF_not_mem {ns0 : List BC} {P : List Nat} {b : BC} (h : b.id ∉ P) :
    PF ns0 P b = b := by
  simp [PF, h]

theorem PF_snoc_ne {ns0 : List BC} {P : List Nat} {i : Nat} {b : BC}
    (h : ¬ b.id = i) : PF ns0 (P ++ [i]) b = PF ns0 P b := by
  unfold PF
  simp [List.mem_append, h]

theorem PF_snoc_self {ns0 : List BC} {P : List Nat} {b : BC} {o : Option Int}
    (hv : patchValD ns0 b = some o) :
    PF ns0 (P ++ [b.id]) b = { b with oparg := o } := by
  unfold PF
  simp [List.mem_append, hv]

theorem patchStep_main {ns0 : List BC} (hN : (ns0.map (fun b => b.id)).Nodup)
    {P : List Nat} {b₀ : BC} (hb₀ : b₀ ∈ ns0) (hi : b₀.id ∉ P)
    {g : Graph} (hg : g.nodes = ns0.map (PF ns0 P))
    {g2 : Graph} (h : patchStep g b₀ = some g2) :
    g2.nodes = ns0.map (PF ns0 (P ++ [b₀.id])) ∧ g2.base = g.base ∧
    g2.bytecodes = g.bytecodes ∧ g2.co_firstlineno = g.co_firstlineno ∧
    g2.co_lnotab = g.co_lnotab := by
  have hskip : patchValD ns0 b₀ = some b₀.oparg →
      g.nodes = ns0.map (PF ns0 (P ++ [b₀.id])) := by
    intro hv
    rw [hg]
    refine List.map_congr_left (fun b hb => ?_)
    by_cases hbi : b.id = b₀.id
    · have hbb : b = b₀ := mem_id_unique hN hb₀ hb hbi
      rw [hbb, PF_not_mem hi, PF_snoc_self hv]
    · rw [PF_snoc_ne hbi]
  unfold patchStep at h
  split at h
  case isTrue hlt =>
    injection h with h
    subst h
    refine ⟨hskip ?_, rfl, rfl, rfl, rfl⟩
    simp [patchValD, hlt]
  case isFalse hge =>
    split at h
    case isTrue hrel =>
      cases ht : b₀.target with
      | none => rw [ht] at h; cases h
      | some tid =>
        rw [ht] at h
        dsimp only at h
        cases hf : findNode g.nodes tid with
        | none => rw [hf] at h; cases h
        | some t' =>
          rw [hf] at h
          dsimp only at h
          injection h with h
          subst h
          refine ⟨?_, rfl, rfl, rfl, rfl⟩
          rw [hg] at hf ⊢
          rw [findNode_map_of_id (PF ns0 P) (PF_id ns0 P) ns0 tid] at hf
          cases hf0 : findNode ns0 tid with
          | none => rw [hf0] at hf; cases hf
          | some t0 =>
            rw [hf0] at hf
            injection hf with hf
            subst hf
            rw [updNode_map ns0 (PF ns0 P) b₀.id _ (PF_id ns0 P)]
            refine List.map_congr_left (fun b hb => ?_)
            by_cases hbi : b.id = b₀.id
            · have hbb : b = b₀ := mem_id_unique hN hb₀ hb hbi
              rw [hbb]
              have hv : patchValD ns0 b₀ =
                  some (some ((t0.addr : Int) - ((b₀.addr : Int) + b₀.len))) := by
                simp [patchValD, hge, hrel, ht, hf0]
              simp only [if_pos rfl, PF_not_mem hi, PF_addr, PF_snoc_self hv, if_true]
            · simp only [if_neg hbi, PF_snoc_ne hbi]
    case isFalse hrel =>
      split at h
      case isTrue habs =>
        cases ht : b₀.target with
        | none => rw [ht] at h; cases h
        | some tid =>
          rw [ht] at h
          dsimp only at h
          cases hf : findNode g.nodes tid with
          | none => rw [hf] at h; cases h
          | some t' =>
            rw [hf] at h
            dsimp only at h
            injection h with h
            subst h
            refine ⟨?_, rfl, rfl, rfl, rfl⟩
            rw [hg] at hf ⊢
            rw [findNode_map_of_id (PF ns0 P) (PF_id ns0 P) ns0 tid] at hf
            cases hf0 : findNode ns0 tid with
            | none => rw [hf0] at hf; cases hf
            | some t0 =>
              rw [hf0] at hf
              injection hf with hf
              subst hf
              rw [updNode_map ns0 (PF ns0 P) b₀.id _ (PF_id ns0 P)]
              refine List.map_congr_left (fun b hb => ?_)
              by_cases hbi : b.id = b₀.id
              · have hbb : b = b₀ := mem_id_unique hN hb₀ hb hbi
                rw [hbb]
                have hv : patchValD ns0 b₀ = some (some ((t0.addr : Int))) := by
                  simp [patchValD, hge, hrel, habs, ht, hf0]
                simp only [if_pos rfl, PF_not_mem hi, PF_addr, PF_snoc_self hv, if_true]
              · simp only [if_neg hbi, PF_snoc_ne hbi]
      case isFalse habs =>
        injection h with h
        subst h
        refine ⟨hskip ?_, rfl, rfl, rfl, rfl⟩
        simp [patchValD, hge, hrel, habs]

theorem patchFold_main {ns0 : List BC} (hN : (ns0.map (fun b => b.id)).Nodup) :
    ∀ (ids P : List Nat) (g : Graph),
    P ++ ids = ns0.map (fun b => b.id) →
    g.nodes = ns0.map (PF ns0 P) →
    ∀ g', patchFold g ids = some g' →
    g'.nodes = ns0.map (PF ns0 (P ++ ids)) ∧ g'.base = g.base ∧
    g'.bytecodes = g.bytecodes ∧ g'.co_firstlineno = g.co_firstlineno ∧
    g'.co_lnotab = g.co_lnotab := by
  intro ids
  induction ids with
  | nil =>
    intro P g hP hg g' h
    cases h
    exact ⟨by simpa using hg, rfl, rfl, rfl, rfl⟩
  | cons i rest ih =>
    intro P g hP hg g' h
    have hiMem : i ∈ ns0.map (fun b => b.id) := by
      rw [← hP]; simp
    obtain ⟨b₀, hb₀, hb₀i⟩ := List.mem_map.mp hiMem
    subst hb₀i
    have hNP : (P ++ b₀.id :: rest).Nodup := by rw [hP]; exact hN
    have hiP : b₀.id ∉ P := by
      obtain ⟨-, -, hdisj⟩ := List.nodup_append.mp hNP
      intro hmem
      exact hdisj hmem (List.mem_cons_self _ _)
    have hfind : findNode g.nodes b₀.id = some b₀ := by
      rw [hg, findNode_map_of_id (PF ns0 P) (PF_id ns0 P) ns0 b₀.id,
        findNode_of_nodup hN hb₀]
      simp [PF_not_mem hiP]
    unfold patchFold at h
    rw [hfind] at h
    dsimp only at h
    cases hs : patchStep g b₀ with
    | none => rw [hs] at h; cases h
    | some g2 =>
      rw [hs] at h
      dsimp only at h
      obtain ⟨m1, m2, m3, m4, m5⟩ := patchStep_main hN hb₀ hiP hg hs
      have hP' : (P ++ [b₀.id]) ++ rest = ns0.map (fun b => b.id) := by
        simpa [List.append_assoc] using hP
      obtain ⟨c1, c2, c3, c4, c5⟩ := ih (P ++ [b₀.id]) g2 hP' m1 g' h
      refine ⟨by simpa [List.append_assoc] using c1, c2.trans m2, c3.trans m3,
        c4.trans m4, c5.trans m5⟩

theorem patch_opargs_main {g g' : Graph}
    (hN : (g.nodes.map (fun b => b.id)).Nodup)
    (h : patch_opargs g = some g') :
    g'.nodes = g.nodes.map (PF g.nodes (g.nodes.map (fun b => b.id))) ∧
    g'.base = g.base ∧ g'.bytecodes = g.bytecodes ∧
    g'.co_firstlineno = g.co_firstlineno ∧ g'.co_lnotab = g.co_lnotab := by
  unfold patch_opargs at h
  have hid : g.nodes = g.nodes.map (PF g.nodes []) := by
    have : ∀ b ∈ g.nodes, PF g.nodes [] b = b := fun b _ => by simp [PF]
    rw [List.map_congr_left this]
    simp
  obtain ⟨c1, c2, c3, c4, c5⟩ :=
    patchFold_main hN (g.nodes.map (fun b => b.id)) [] g (by simp) hid g' h
  exact ⟨by simpa using c1, c2, c3, c4, c5⟩

theorem exists_of_map_eq {α : Type} (f : BC → α) {ns ns' : List BC}
    (h : ns'.map f = ns.map f) {b : BC} (hb : b ∈ ns) :
    ∃ b' ∈ ns', f b' = f b := by
  have hmem : f b ∈ ns'.map f := by
    rw [h]; exact List.mem_map_of_mem f hb
  obtain ⟨b', hb', he⟩ := List.mem_map.mp hmem
  exact ⟨b', hb', he⟩

theorem map_id_of_map_eq {α : Type} (f : BC → α) (p : α → Nat)
    (hp : ∀ b, p (f b) = b.id) {ns ns' : List BC} (h : ns'.map f = ns.map f) :
    ns'.map (fun b => b.id) = ns.map (fun b => b.id) := by
  calc ns'.map (fun b => b.id) = (ns'.map f).map p := by
        rw [List.map_map]
        exact (List.map_congr_left fun b _ => (hp b).symm)
    _ = (ns.map f).map p := by rw [h]
    _ = ns.map (fun b => b.id) := by
        rw [List.map_map]
        exact List.map_congr_left fun b _ => hp b

theorem patchFold_none : ∀ {ids : List Nat} {g : Graph} {b : BC},
    (g.nodes.map (fun x => x.id)).Nodup → b ∈ g.nodes → b.id ∈ ids →
    ¬ b.opcode < HAVE_ARGUMENT → (b.opcode ∈ hasjrel ∨ b.opcode ∈ hasjabs) →
    b.target = none →
    patchFold g ids = none := by
  intro ids
  induction ids with
  | nil => intro g b _ _ hmem _ _ _; cases hmem
  | cons i rest ih =>
    intro g b hN hb hmem hge hj ht
    unfold patchFold
    by_cases hib : i = b.id
    · subst hib
      rw [findNode_of_nodup hN hb]
      dsimp only
      have hstep : patchStep g b = none := by
        unfold patchStep
        rcases hj with hj | hj
        · simp [hge, hj, ht]
        · by_cases hr : b.opcode ∈ hasjrel
          · simp [hge, hr, ht]
          · simp [hge, hr, hj, ht]
      rw [hstep]
    · have hmem' : b.id ∈ rest := by
        rcases List.mem_cons.mp hmem with h | h
        · exact absurd h.symm hib
        · exact h
      cases hf : findNode g.nodes i with
      | none => exact ih hN hb hmem' hge hj ht
      | some cur =>
        dsimp only
        cases hs : patchStep g cur with
        | none => rfl
        | some g2 =>
          obtain ⟨p1, -, -, -, -⟩ := patchStep_pres hs
          obtain ⟨b2, hb2, he⟩ := exists_of_map_eq coreP p1 hb
          have hN2 : (g2.nodes.map (fun x => x.id)).Nodup := by
            rw [map_id_of_map_eq coreP (fun x => x.1) (fun _ => rfl) p1]
            exact hN
          have he' : b2.id = b.id ∧ b2.opcode = b.opcode ∧ b2.target = b.target := by
            simp only [coreP, Prod.mk.injEq] at he
            exact ⟨he.1, he.2.1, he.2.2.2.2.1⟩
          refine ih hN2 hb2 ?_ ?_ ?_ ?_
          · rw [he'.1]; exact hmem'
          · rw [he'.2.1]; exact hge
          · rw [he'.2.1]; exact hj
          · rw [he'.2.2]; exact ht

theorem labelsFold_none : ∀ {ids : List Nat} {g : Graph} {b : BC} {l : Int},
    (g.nodes.map (fun x => x.id)).Nodup → b ∈ g.nodes → b.id ∈ ids →
    labelOf b = some l → 0 ≤ l → lookupA g.bytecodes l.toNat = none →
    labelsFold g ids = none := by
  intro ids
  induction ids with
  | nil => intro g b l _ _ hmem _ _ _; cases hmem
  | cons i rest ih =>
    intro g b l hN hb hmem hl hl0 hlook
    unfold labelsFold
    by_cases hib : i = b.id
    · subst hib
      rw [findNode_of_nodup hN hb]
      dsimp only
      have hstep : labelsStep g b = none := by
        unfold labelOf at hl
        unfold labelsStep
        split at hl
        case isTrue hge =>
          split at hl
          case isTrue hrel =>
            obtain ⟨v, hv, hlv⟩ := Option.map_eq_some'.mp hl
            rw [if_pos hge, if_pos hrel, hv]
            dsimp only
            rw [hlv]
            unfold labelsApply
            rw [if_pos hl0, hlook]
          case isFalse hrel =>
            split at hl
            case isTrue habs =>
              rw [if_pos hge, if_neg hrel, if_pos habs, hl]
              dsimp only
              unfold labelsApply
              rw [if_pos hl0, hlook]
            case isFalse habs => cases hl
        case isFalse hge => cases hl
      rw [hstep]
    · have hmem' : b.id ∈ rest := by
        rcases List.mem_cons.mp hmem with h | h
        · exact absurd h.symm hib
        · exact h
      cases hf : findNode g.nodes i with
      | none => exact ih hN hb hmem' hl hl0 hlook
      | some cur =>
        dsimp only
        cases hs : labelsStep g cur with
        | none => rfl
        | some g2 =>
          obtain ⟨p1, -, pd, -, -⟩ := labelsStep_pres hs
          obtain ⟨b2, hb2, he⟩ := exists_of_map_eq coreL p1 hb
          have hN2 : (g2.nodes.map (fun x => x.id)).Nodup := by
            rw [map_id_of_map_eq coreL (fun x => x.1) (fun _ => rfl) p1]
            exact hN
          have he' : b2.id = b.id ∧ b2.opcode = b.opcode ∧ b2.oparg = b.oparg ∧
              b2.addr = b.addr := by
            simp only [coreL, Prod.mk.injEq] at he
            exact ⟨he.1, he.2.1, he.2.2.1, he.2.2.2.1⟩
          have hlab2 : labelOf b2 = some l := by
            rw [← hl]
            unfold labelOf
            rw [he'.2.1, he'.2.2.1, he'.2.2.2]
            rcases he' with ⟨-, hop, -, -⟩
            simp [BC.len, hop]
          refine ih hN2 hb2 ?_ hlab2 hl0 ?_
          · rw [he'.1]; exact hmem'
          · rw [pd]; exact hlook

theorem find?_append_right {α : Type} (p : α → Bool) (l₁ l₂ : List α)
    (h : ∀ x ∈ l₁, ¬ p x) : (l₁ ++ l₂).find? p = l₂.find? p := by
  induction l₁ with
  | nil => rfl
  | cons a t ih =>
    rw [List.cons_append, List.find?_cons_of_neg _ (h a (List.mem_cons_self a t))]
    exact ih (fun x hx => h x (List.mem_cons_of_mem a hx))

theorem parseLoop_base_ne {code : List Nat} {base : Nat} (hb : base ≠ 0)
    (hcode : code ≠ []) (fuel idv : Nat) :
    parseLoop code base fuel 0 idv [] = none := by
  have hlen : 0 < code.length := List.length_pos.mpr hcode
  cases fuel with
  | zero => simp [parseLoop, hlen]
  | succ fuel =>
    unfold parseLoop
    rw [if_pos hlen]
    cases hmk : mkBytecode idv (base + 0) (code.drop 0) with
    | none => rfl
    | some bc =>
      dsimp only
      have hfind : (([] : List (Nat × BC)) ++ [(base + 0, bc)]).find?
          (fun p => p.1 = 0) = none := by
        rw [List.nil_append]
        rw [List.find?_cons_of_neg]
        · rfl
        · simpa using hb
      rw [hfind]

theorem bin_decoded (idv b0 b1 b2 a : Nat) (h0 : b0 < 256) (h1 : b1 < 256)
    (h2 : b2 < 256) (hop : HAVE_ARGUMENT ≤ b0) :
    BC.bin ⟨idv, b0, some ((b1 : Int) + (b2 : Int) * 256), a, none, none, []⟩
      = some [b0, b1, b2] := by
  have hcast : (b1 : Int) + (b2 : Int) * 256 = ((b1 + b2 * 256 : Nat) : Int) := by
    push_cast
    ring
  unfold BC.bin
  dsimp only
  rw [if_neg (Nat.not_lt.mpr hop), hcast]
  rw [if_pos ⟨h0, by positivity, by exact_mod_cast (by omega : b1 + b2 * 256 < 65536)⟩]
  rw [Int.toNat_natCast]
  have e1 : (b1 + b2 * 256) % 256 = b1 := by omega
  have e2 : (b1 + b2 * 256) / 256 = b2 := by omega
  rw [e1, e2]

theorem bin_decoded1 (idv b0 a : Nat) (h0 : b0 < 256) (hop : b0 < HAVE_ARGUMENT) :
    BC.bin ⟨idv, b0, none, a, none, none, []⟩ = some [b0] := by
  unfold BC.bin
  dsimp only
  rw [if_pos hop, if_pos h0]

theorem parseLoop_sound : ∀ (code : List Nat) (fuel off idv : Nat)
    (dict d : List (Nat × BC)) (ts : List Int),
    parseLoop code 0 fuel off idv dict = some (d, ts) →
    (∀ x ∈ code, x < 256) →
    (∀ p ∈ dict, p.1 < off) →
    ∃ e, d = dict ++ e ∧ entriesOK off idv e ∧
      serializeGo (e.map (fun p => p.2)) = some (code.drop off) ∧
      (∀ t ∈ ts, ∃ p ∈ e, p.2.get_target_addr = some t) := by
  intro code fuel
  induction fuel with
  | zero =>
    intro off idv dict d ts h hbytes hkeys
    unfold parseLoop at h
    split at h
    · cases h
    case isFalse hoff =>
      injection h with h1
      injection h1 with ha hb
      subst ha
      subst hb
      refine ⟨[], by simp, trivial, ?_, by simp⟩
      rw [List.drop_eq_nil_of_le (Nat.le_of_not_lt hoff)]
      rfl
  | succ fuel ih =>
    intro off idv dict d ts h hbytes hkeys
    unfold parseLoop at h
    split at h
    case isFalse hoff =>
      injection h with h1
      injection h1 with ha hb
      subst ha
      subst hb
      refine ⟨[], by simp, trivial, ?_, by simp⟩
      rw [List.drop_eq_nil_of_le (Nat.le_of_not_lt hoff)]
      rfl
    case isTrue hoff =>
      cases hdrop : code.drop off with
      | nil =>
        exfalso
        rw [List.drop_eq_nil_iff] at hdrop
        exact Nat.not_lt.mpr hdrop hoff
      | cons b0 rest =>
        have hb0code : b0 ∈ code :=
          List.mem_of_mem_drop (hdrop ▸ List.mem_cons_self b0 rest)
        have hb0 : b0 < 256 := hbytes b0 hb0code
        rw [hdrop] at h
        have hfind : ∀ bc : BC, ((dict ++ [(0 + off, bc)]).find?
            (fun p => p.1 = off)) = some (0 + off, bc) := by
          intro bc
          rw [find?_append_right _ dict _ ?_]
          · rw [List.find?_cons_of_pos]
            simp
          · intro x hx
            simp only [decide_eq_true_eq]
            exact Nat.ne_of_lt (hkeys x hx)
        by_cases hop : HAVE_ARGUMENT ≤ b0
        · -- argument-taking opcode
          match hr : rest with
          | [] =>
            have hmk : mkBytecode idv (0 + off) [b0] = none := by
              simp [mkBytecode, hop]
            rw [hmk] at h
            cases h
          | [b1] =>
            have hmk : mkBytecode idv (0 + off) [b0, b1] = none := by
              simp [mkBytecode, hop]
            rw [hmk] at h
            cases h
          | b1 :: b2 :: rest2 =>
            have hb1 : b1 < 256 := hbytes b1 (List.mem_of_mem_drop
              (hdrop ▸ List.mem_cons_of_mem _ (List.mem_cons_self b1 _)))
            have hb2 : b2 < 256 := hbytes b2 (List.mem_of_mem_drop
              (hdrop ▸ List.mem_cons_of_mem _ (List.mem_cons_of_mem _
                (List.mem_cons_self b2 _))))
            set bc : BC :=
              ⟨idv, b0, some ((b1 : Int) + (b2 : Int) * 256), 0 + off,
                none, none, []⟩ with hbc
            have hmk : mkBytecode idv (0 + off) (b0 :: b1 :: b2 :: rest2) =
                some bc := by
              simp [mkBytecode, hop, hbc]
            rw [hmk] at h
            dsimp only at h
            rw [hfind] at h
            dsimp only at h
            have hlen3 : bc.len = 3 := by
              simp [BC.len, hbc, Nat.not_lt.mpr hop]
            cases hrec : parseLoop code 0 fuel (off + bc.len) (idv + 1)
                (dict ++ [(0 + off, bc)]) with
            | none => rw [hrec] at h; cases h
            | some pr =>
              obtain ⟨d1, ts1⟩ := pr
              rw [hrec] at h
              dsimp only at h
              injection h with h1
              injection h1 with ha hb
              subst ha
              subst hb
              have hkeys2 : ∀ p ∈ dict ++ [(0 + off, bc)],
                  p.1 < off + bc.len := by
                intro p hp
                rcases List.mem_append.mp hp with hp | hp
                · have := hkeys p hp
                  omega
                · simp only [List.mem_singleton] at hp
                  subst hp
                  simp [hlen3]
              obtain ⟨e1, he1, he2, he3, he4⟩ :=
                ih (off + bc.len) (idv + 1) _ d1 ts1 hrec hbytes hkeys2
              refine ⟨(0 + off, bc) :: e1, by simp [he1], ?_, ?_, ?_⟩
              · refine ⟨by omega, by simp [hbc], by simp [hbc], ?_⟩
                refine ⟨by simpa [hbc], by simp [hbc], by simp [hbc],
                  by simp [hbc], ?_, ?_, ?_⟩
                · intro _
                  refine ⟨(b1 : Int) + (b2 : Int) * 256, by simp [hbc], ?_, ?_⟩
                  · positivity
                  · omega
                · intro hlt
                  exact absurd hop (Nat.not_le.mpr hlt)
                · exact he2
              · simp only [List.map_cons, serializeGo]
                have hbin : bc.bin = some [b0, b1, b2] := by
                  rw [hbc]
                  exact bin_decoded idv b0 b1 b2 (0 + off) hb0 hb1 hb2 hop
                rw [hbin]
                rw [hlen3] at he3
                rw [he3]
                have hdrop3 : code.drop (off + 3) = rest2 := by
                  have hdd : code.drop (off + 3) = (code.drop off).drop 3 := by
                    rw [List.drop_drop]
                  rw [hdd, hdrop]
                  rfl
                rw [hdrop3]
                rfl
              · intro t ht
                rcases hcase : bc.get_target_addr with _ | htv
                · rw [hcase] at ht
                  obtain ⟨p, hp, hpt⟩ := he4 t ht
                  exact ⟨p, List.mem_cons_of_mem _ hp, hpt⟩
                · rw [hcase] at ht
                  rcases List.mem_cons.mp ht with heq | hmem
                  · subst heq
                    exact ⟨(0 + off, bc), List.mem_cons_self _ _, hcase⟩
                  · obtain ⟨p, hp, hpt⟩ := he4 t hmem
                    exact ⟨p, List.mem_cons_of_mem _ hp, hpt⟩
        · -- argument-less opcode
          set bc : BC := ⟨idv, b0, none, 0 + off, none, none, []⟩ with hbc
          have hmk : mkBytecode idv (0 + off) (b0 :: rest) = some bc := by
            simp [mkBytecode, hop, hbc]
          rw [hmk] at h
          dsimp only at h
          rw [hfind] at h
          dsimp only at h
          have hlen1 : bc.len = 1 := by
            simp [BC.len, hbc, Nat.not_le.mp hop]
          cases hrec : parseLoop code 0 fuel (off + bc.len) (idv + 1)
              (dict ++ [(0 + off, bc)]) with
          | none => rw [hrec] at h; cases h
          | some pr =>
            obtain ⟨d1, ts1⟩ := pr
            rw [hrec] at h
            dsimp only at h
            injection h with h1
            injection h1 with ha hb
            subst ha
            subst hb
            have hkeys2 : ∀ p ∈ dict ++ [(0 + off, bc)],
                p.1 < off + bc.len := by
              intro p hp
              rcases List.mem_append.mp hp with hp | hp
              · have := hkeys p hp
                omega
              · simp only [List.mem_singleton] at hp
                subst hp
                simp [hlen1]
            obtain ⟨e1, he1, he2, he3, he4⟩ :=
              ih (off + bc.len) (idv + 1) _ d1 ts1 hrec hbytes hkeys2
            refine ⟨(0 + off, bc) :: e1, by simp [he1], ?_, ?_, ?_⟩
            · refine ⟨by omega, by simp [hbc], by simp [hbc], ?_⟩
              refine ⟨by simpa [hbc], by simp [hbc], by simp [hbc],
                by simp [hbc], ?_, ?_, ?_⟩
              · intro hge
                exact absurd hge hop
              · intro _
                simp [hbc]
              · exact he2
            · simp only [List.map_cons, serializeGo]
              have hbin : bc.bin = some [b0] := by
                rw [hbc]
                exact bin_decoded1 idv b0 (0 + off) hb0 (Nat.not_le.mp hop)
              rw [hbin]
              rw [hlen1] at he3
              rw [he3]
              have hdrop1 : code.drop (off + 1) = rest := by
                have hdd : code.drop (off + 1) = (code.drop off).drop 1 := by
                  rw [List.drop_drop]
                rw [hdd, hdrop]
                rfl
              rw [hdrop1]
              rfl
            · intro t ht
              have hta : bc.get_target_addr = none := by
                have hj1 : ¬ b0 ∈ hasjrel := by
                  intro hmem
                  have : HAVE_ARGUMENT ≤ b0 := by
                    fin_cases hmem <;> simp [HAVE_ARGUMENT]
                  exact hop this
                have hj2 : ¬ b0 ∈ hasjabs := by
                  intro hmem
                  have : HAVE_ARGUMENT ≤ b0 := by
                    fin_cases hmem <;> simp [HAVE_ARGUMENT]
                  exact hop this
                simp [BC.get_target_addr, hbc, hj1, hj2]
              rw [hta] at ht
              obtain ⟨p, hp, hpt⟩ := he4 t ht
              exact ⟨p, List.mem_cons_of_mem _ hp, hpt⟩

theorem entriesOK_ids : ∀ {e : List (Nat × BC)} {off idv : Nat},
    entriesOK off idv e →
    (e.map (fun p => p.2)).map (fun b => b.id) = List.range' idv e.length := by
  intro e
  induction e with
  | nil => intro off idv _; rfl
  | cons p rest ih =>
    intro off idv h
    obtain ⟨a, bc⟩ := p
    obtain ⟨-, -, h3, -, -, -, -, -, -, hrest⟩ := h
    simp only [List.map_cons, List.length_cons, List.range'_succ, h3]
    rw [ih hrest]

theorem entriesOK_packed : ∀ {e : List (Nat × BC)} {off idv : Nat},
    entriesOK off idv e → packedFrom off (e.map (fun p => p.2)) = true := by
  intro e
  induction e with
  | nil => intro off idv _; rfl
  | cons p rest ih =>
    intro off idv h
    obtain ⟨a, bc⟩ := p
    obtain ⟨-, h2, -, -, -, -, -, -, -, hrest⟩ := h
    simp only [List.map_cons, packedFrom, h2, Bool.and_eq_true, decide_eq_true_eq]
    exact ⟨trivial, ih hrest⟩

theorem entriesOK_keys : ∀ {e : List (Nat × BC)} {off idv : Nat},
    entriesOK off idv e →
    e.map (fun p => (p.1, p.2.id)) =
      (e.map (fun p => p.2)).map (fun b => (b.addr, b.id)) := by
  intro e
  induction e with
  | nil => intro off idv _; rfl
  | cons p rest ih =>
    intro off idv h
    obtain ⟨a, bc⟩ := p
    obtain ⟨h1, h2, -, -, -, -, -, -, -, hrest⟩ := h
    simp only [List.map_cons]
    rw [ih hrest]
    subst h1
    rw [h2]

theorem entriesOK_wf : ∀ {e : List (Nat × BC)} {off idv : Nat},
    entriesOK off idv e → ∀ p ∈ e,
    p.2.target = none ∧ p.2.xrefs = [] ∧ p.2.lnotab = none ∧
    p.2.opcode < 256 ∧
    (HAVE_ARGUMENT ≤ p.2.opcode → ∃ v, p.2.oparg = some v ∧ 0 ≤ v ∧ v < 65536) ∧
    (p.2.opcode < HAVE_ARGUMENT → p.2.oparg = none) := by
  intro e
  induction e with
  | nil => intro off idv _ p hp; cases hp
  | cons q rest ih =>
    intro off idv h p hp
    obtain ⟨a, bc⟩ := q
    obtain ⟨-, -, -, h4, h5, h6, h7, h8, h9, hrest⟩ := h
    rcases List.mem_cons.mp hp with heq | hmem
    · subst heq
      exact ⟨h5, h6, h7, h4, h8, h9⟩
    · exact ih hrest p hmem

theorem entriesOK_nodup {e : List (Nat × BC)} {off idv : Nat}
    (h : entriesOK off idv e) :
    ((e.map (fun p => p.2)).map (fun b => b.id)).Nodup := by
  rw [entriesOK_ids h]
  exact List.nodup_range' idv e.length

theorem parse_bytecode_sound {code cl : List Nat} {fl : Int} {base : Nat}
    {d : List Int} {g : Graph}
    (h : parse_bytecode code cl fl base = (d, some g))
    (hbytes : ∀ x ∈ code, x < 256) :
    base = 0 ∧ ∃ e, entriesOK 0 0 e ∧
      serializeGo (e.map (fun p => p.2)) = some code ∧
      apply_labels ⟨0, fl, cl, e.map (fun p => p.2),
        e.map (fun p => (p.1, p.2.id))⟩ = some g := by
  have hbase : base = 0 := by
    by_contra hb
    rcases List.eq_nil_or_concat code with hc | _
    · subst hc
      simp only [parse_bytecode, parseLoop, List.length_nil,
        Nat.lt_irrefl, if_false] at h
      cases h
    case inr hcc =>
      have hcode : code ≠ [] := by
        obtain ⟨l, a, rfl⟩ := hcc
        simp
      unfold parse_bytecode at h
      rw [parseLoop_base_ne hb hcode code.length 0] at h
      cases h
  subst hbase
  unfold parse_bytecode at h
  cases hp : parseLoop code 0 code.length 0 0 [] with
  | none => rw [hp] at h; cases h
  | some pr =>
    obtain ⟨dict, targets⟩ := pr
    rw [hp] at h
    dsimp only at h
    obtain ⟨e, he1, he2, he3, -⟩ :=
      parseLoop_sound code code.length 0 0 [] dict targets hp hbytes
        (by intro p hp0; cases hp0)
    have he0 : dict = e := by simpa using he1
    subst he0
    refine ⟨rfl, dict, he2, he3, ?_⟩
    cases hl : lookupA (dict.map (fun p => (p.1, p.2.id))) 0 with
    | none => rw [hl] at h; cases h
    | some x =>
      rw [hl] at h
      dsimp only at h
      cases ha : apply_labels ⟨0, fl, cl, dict.map (fun p => p.2),
          dict.map (fun p => (p.1, p.2.id))⟩ with
      | none => rw [ha] at h; cases h
      | some g1 =>
        rw [ha] at h
        have h2 : g1 = g := by
          have hsnd := congrArg Prod.snd h
          simpa using hsnd
        rw [← h2]

theorem map_proj_of_map_eq {α β : Type} (f : BC → α) (q : α → β) (p : BC → β)
    (hq : ∀ b, q (f b) = p b) {ns ns' : List BC} (h : ns'.map f = ns.map f) :
    ns'.map p = ns.map p := by
  calc ns'.map p = (ns'.map f).map q := by
        rw [List.map_map]
        exact (List.map_congr_left fun b _ => (hq b).symm)
    _ = (ns.map f).map q := by rw [h]
    _ = ns.map p := by
        rw [List.map_map]
        exact List.map_congr_left fun b _ => hq b

theorem applyLinenoGo_core : ∀ (ns : List BC) (ca : Nat) (cl nl : Int)
    (rem : List (Nat × Int)),
    (applyLinenoGo ns ca cl nl rem).map coreN = ns.map coreN := by
  intro ns
  induction ns with
  | nil => intro ca cl nl rem; rfl
  | cons x rest ih =>
    intro ca cl nl rem
    unfold applyLinenoGo
    split
    · cases rem with
      | nil => simp only [List.map_cons, ih]; rfl
      | cons p rem' =>
        obtain ⟨a, l⟩ := p
        simp only [List.map_cons, ih]
        rfl
    · simp only [List.map_cons, ih]
      rfl

theorem apply_lineno_pres {g g' : Graph} (h : apply_lineno g = some g') :
    g'.nodes.map coreN = g.nodes.map coreN ∧ g'.base = g.base ∧
    g'.bytecodes = g.bytecodes ∧ g'.co_firstlineno = g.co_firstlineno ∧
    g'.co_lnotab = g.co_lnotab := by
  unfold apply_lineno at h
  dsimp only at h
  cases hc : cumLinenos g.base g.co_firstlineno
      ((evenBytes g.co_lnotab).zip (oddBytes g.co_lnotab)) with
  | nil =>
    rw [hc] at h
    injection h with h
    subst h
    exact ⟨rfl, rfl, rfl, rfl, rfl⟩
  | cons p0 rest0 =>
    cases rest0 with
    | nil => rw [hc] at h; cases h
    | cons p1 rest1 =>
      obtain ⟨a0, l0⟩ := p0
      obtain ⟨a1, l1⟩ := p1
      rw [hc] at h
      injection h with h
      subst h
      exact ⟨applyLinenoGo_core _ _ _ _ _, rfl, rfl, rfl, rfl⟩

theorem apply_labels_none {g : Graph} {b : BC} {l : Int}
    (hN : (g.nodes.map (fun x => x.id)).Nodup) (hb : b ∈ g.nodes)
    (hl : labelOf b = some l) (hl0 : 0 ≤ l)
    (hlook : lookupA g.bytecodes l.toNat = none) :
    apply_labels g = none := by
  unfold apply_labels
  dsimp only
  set clear : BC → BC :=
    fun b => { b with xrefs := ([] : List Nat), target := (none : Option Nat) }
    with hclear
  have hbc : clear b ∈ g.nodes.map clear := List.mem_map_of_mem clear hb
  have hids : (g.nodes.map clear).map (fun x => x.id) =
      g.nodes.map (fun x => x.id) := by
    rw [List.map_map]
    exact List.map_congr_left fun c _ => rfl
  have hNc : ((g.nodes.map clear).map (fun x => x.id)).Nodup := by
    rw [hids]
    exact hN
  have hlc : labelOf (clear b) = some l := hl
  refine labelsFold_none hNc hbc ?_ hlc hl0 hlook
  show (clear b).id ∈ (g.nodes.map clear).map (fun x => x.id)
  rw [hids]
  exact List.mem_map_of_mem (fun x => x.id) hb

theorem lookupA_nodesmap : ∀ {ns : List BC} {a tid : Nat},
    lookupA (ns.map (fun b => (b.addr, b.id))) a = some tid →
    ∃ t ∈ ns, t.addr = a ∧ t.id = tid := by
  intro ns
  induction ns with
  | nil => intro a tid h; cases h
  | cons b rest ih =>
    intro a tid h
    unfold lookupA at h
    by_cases hb : b.addr = a
    · rw [List.map_cons, List.find?_cons_of_pos _ (by simpa using hb)] at h
      injection h with h
      exact ⟨b, List.mem_cons_self _ _, hb, h⟩
    · rw [List.map_cons, List.find?_cons_of_neg _ (by simpa using hb)] at h
      obtain ⟨t, ht, h1, h2⟩ := ih h
      exact ⟨t, List.mem_cons_of_mem _ ht, h1, h2⟩

theorem reindexG_of_packed {g : Graph} (h : packedFrom g.base g.nodes = true) :
    reindexG g = { g with bytecodes := g.nodes.map (fun b => (b.addr, b.id)) } := by
  have h1 := reindexGo_of_packed g.nodes g.base h
  have h2 := reindexGo_dict g.nodes g.base
  have hpair : reindexGo g.nodes g.base =
      (g.nodes, g.nodes.map (fun b => (b.addr, b.id))) := by
    have := Prod.mk.eta (p := reindexGo g.nodes g.base)
    rw [← this, h1]
    rw [h2, h1]
  unfold reindexG
  rw [hpair]

theorem graphInit_split {code cl : List Nat} {fl : Int} {base : Nat}
    {d : List Int} {g : Graph}
    (h : graphInit code cl fl base = (d, some g)) :
    ∃ g1, parse_bytecode code cl fl base = (d, some g1) ∧
      apply_lineno g1 = some g := by
  unfold graphInit at h
  cases hpb : parse_bytecode code cl fl base with
  | mk d0 og =>
    rw [hpb] at h
    cases og with
    | none =>
      dsimp only at h
      have := congrArg Prod.snd h
      simp at this
    | some g1 =>
      dsimp only at h
      have h1 : d0 = d := congrArg Prod.fst h
      have h2 : apply_lineno g1 = some g := congrArg Prod.snd h
      subst h1
      exact ⟨g1, rfl, h2⟩

theorem jrel_ge : ∀ x ∈ hasjrel, HAVE_ARGUMENT ≤ x := by decide

theorem jabs_ge : ∀ x ∈ hasjabs, HAVE_ARGUMENT ≤ x := by decide

theorem jrel_not_jabs : ∀ x ∈ hasjrel, x ∉ hasjabs := by decide

set_option maxHeartbeats 2000000 in
/-- C1 (amended): for every byte stream and line table, decoding the stream
(`BytecodeGraph.__init__`) and immediately calling `get_code` with no
structural mutation returns — whenever it returns at all — a `co_code`
byte-identical to the original stream.  (The returned `co_lnotab` is not in
general byte-identical; see `C1_counterexample`.) -/
theorem C1_co_code_roundtrip (code cl : List Nat) (fl : Int) (base : Nat)
    (d : List Int) (g : Graph) (c l : List Nat)
    (hbytes : ∀ x ∈ code, x < 256)
    (hinit : graphInit code cl fl base = (d, some g))
    (hget : get_code g = some (c, l)) :
    c = code := by
  obtain ⟨g1, hpb, hlin⟩ := graphInit_split hinit
  obtain ⟨hbase, e, he, hser, ha⟩ := parse_bytecode_sound hpb hbytes
  subst hbase
  have hN0 : ((e.map (fun p => p.2)).map (fun b => b.id)).Nodup :=
    entriesOK_nodup he
  have hpack0 : packedFrom 0 (e.map (fun p => p.2)) = true := entriesOK_packed he
  have hkeys0 : e.map (fun p => (p.1, p.2.id)) =
      (e.map (fun p => p.2)).map (fun b => (b.addr, b.id)) := entriesOK_keys he
  obtain ⟨hg1nodes, hg1dict, hg1base, hg1fl, hg1cl⟩ := apply_labels_main hN0 ha
  dsimp only at hg1nodes hg1dict hg1base hg1fl hg1cl
  obtain ⟨hgN, hgbase, hgdict, hgfl, hgcl⟩ := apply_lineno_pres hlin
  have hπ1 : g1.nodes.map (fun b => (b.opcode, b.addr)) =
      (e.map (fun p => p.2)).map (fun b => (b.opcode, b.addr)) := by
    rw [hg1nodes, List.map_map]
    exact List.map_congr_left fun b _ => rfl
  have hπg : g.nodes.map (fun b => (b.opcode, b.addr)) =
      g1.nodes.map (fun b => (b.opcode, b.addr)) :=
    map_proj_of_map_eq coreN (fun x => (x.2.1, x.2.2.2.1)) _ (fun b => rfl) hgN
  have hpackg : packedFrom 0 g.nodes = true := by
    rw [packedFrom_congr (hπg.trans hπ1) 0]
    exact hpack0
  have hidsg1 : g1.nodes.map (fun b => b.id) =
      (e.map (fun p => p.2)).map (fun b => b.id) := by
    rw [hg1nodes, List.map_map]
    exact List.map_congr_left fun b _ => rfl
  have hidsg : g.nodes.map (fun b => b.id) =
      (e.map (fun p => p.2)).map (fun b => b.id) :=
    (map_proj_of_map_eq coreN (fun x => x.1) _ (fun b => rfl) hgN).trans hidsg1
  have hρ1 : g1.nodes.map (fun b => (b.addr, b.id)) =
      (e.map (fun p => p.2)).map (fun b => (b.addr, b.id)) := by
    rw [hg1nodes, List.map_map]
    exact List.map_congr_left fun b _ => rfl
  have hρ : g.nodes.map (fun b => (b.addr, b.id)) =
      (e.map (fun p => p.2)).map (fun b => (b.addr, b.id)) :=
    (map_proj_of_map_eq coreN (fun x => (x.2.2.2.1, x.1)) _
      (fun b => rfl) hgN).trans hρ1
  have hgbase0 : g.base = 0 := by rw [hgbase, hg1base]
  have hR : reindexG g =
      { g with bytecodes := g.nodes.map (fun b => (b.addr, b.id)) } := by
    apply reindexG_of_packed
    rw [hgbase0]
    exact hpackg
  unfold get_code at hget
  cases hrf : refactor g with
  | none => rw [hrf] at hget; cases hget
  | some g2 =>
    rw [hrf] at hget
    dsimp only at hget
    unfold refactor at hrf
    cases hpt : patch_opargs (reindexG g) with
    | none => rw [hpt] at hrf; cases hrf
    | some g2a =>
      rw [hpt] at hrf
      dsimp only at hrf
      have hNr : ((reindexG g).nodes.map (fun b => b.id)).Nodup := by
        rw [hR]
        dsimp only
        rw [hidsg]
        exact hN0
      obtain ⟨hg2a_nodes, -, -, -, -⟩ := patch_opargs_main hNr hpt
      have hRn : (reindexG g).nodes = g.nodes := by rw [hR]
      rw [hRn] at hg2a_nodes
      have hPF : ∀ b ∈ g.nodes,
          PF g.nodes (g.nodes.map (fun b => b.id)) b = b := by
        intro b hb
        obtain ⟨b1, hb1, hcb⟩ := exists_of_map_eq coreN hgN.symm hb
        have hb1' := hg1nodes ▸ hb1
        obtain ⟨b0, hb0, hFFb⟩ := List.mem_map.mp hb1'
        have hcb' : coreN b =
            coreN (FF (e.map (fun p => (p.1, p.2.id))) (e.map (fun p => p.2))
              ((e.map (fun p => p.2)).map (fun b => b.id)) b0) := by
          rw [hFFb]
          exact hcb.symm
        simp only [coreN, FF, Prod.mk.injEq] at hcb'
        obtain ⟨hbid, hbop, hbarg, hbaddr, hbtar, -⟩ := hcb'
        have hb0mem : b0.id ∈ (e.map (fun p => p.2)).map (fun b => b.id) :=
          List.mem_map_of_mem _ hb0
        rw [if_pos hb0mem] at hbtar
        have hbin : b.id ∈ g.nodes.map (fun b => b.id) :=
          List.mem_map_of_mem _ hb
        unfold PF
        rw [if_pos hbin]
        cases hpv : patchValD g.nodes b with
        | none => rfl
        | some o =>
          have ho : o = b.oparg := by
            unfold patchValD at hpv
            by_cases hlt : b.opcode < HAVE_ARGUMENT
            · rw [if_pos hlt] at hpv
              injection hpv with hpv
              exact hpv.symm
            · rw [if_neg hlt] at hpv
              obtain ⟨p0, hp0, hp0b⟩ := List.mem_map.mp hb0
              obtain ⟨-, -, -, -, hwfe, -⟩ := entriesOK_wf he p0 hp0
              rw [hp0b] at hwfe
              have hge0 : HAVE_ARGUMENT ≤ b0.opcode := by
                rw [← hbop]
                exact Nat.not_lt.mp hlt
              obtain ⟨v, hv, hv0, hv1⟩ := hwfe hge0
              by_cases hjr : b.opcode ∈ hasjrel
              · rw [if_pos hjr] at hpv
                have hjr0 : b0.opcode ∈ hasjrel := by rw [← hbop]; exact hjr
                have hlab : labelOf b0 =
                    some ((b0.addr : Int) + v + (b0.len : Int)) := by
                  unfold labelOf
                  rw [if_pos hge0, if_pos hjr0, hv]
                  rfl
                have hlv0 : (0 : Int) ≤ (b0.addr : Int) + v + (b0.len : Int) := by
                  omega
                rw [hbtar] at hpv
                unfold resToD at hpv
                rw [hlab] at hpv
                dsimp only at hpv
                rw [if_pos hlv0] at hpv
                cases hlk : lookupA (e.map (fun p => (p.1, p.2.id)))
                    ((b0.addr : Int) + v + (b0.len : Int)).toNat with
                | none => rw [hlk] at hpv; cases hpv
                | some tid =>
                  rw [hlk] at hpv
                  dsimp only at hpv
                  rw [hkeys0] at hlk
                  obtain ⟨t0, ht0, ht0a, ht0i⟩ := lookupA_nodesmap hlk
                  cases hft : findNode g.nodes tid with
                  | none => rw [hft] at hpv; cases hpv
                  | some t =>
                    rw [hft] at hpv
                    injection hpv with hpv
                    dsimp only at hpv
                    obtain ⟨htmem, htid⟩ := findNode_mem hft
                    have htρ : ((fun b => (b.addr, b.id)) t) ∈
                        (e.map (fun p => p.2)).map (fun b => (b.addr, b.id)) := by
                      rw [← hρ]
                      exact List.mem_map_of_mem _ htmem
                    obtain ⟨t0', ht0', hpr⟩ := List.mem_map.mp htρ
                    have hpr1 : t0'.addr = t.addr := congrArg Prod.fst hpr
                    have hpr2 : t0'.id = t.id := congrArg Prod.snd hpr
                    have ht0eq : t0' = t0 :=
                      mem_id_unique hN0 ht0 ht0' (by rw [hpr2, htid, ht0i])
                    have htaddr : t.addr =
                        ((b0.addr : Int) + v + (b0.len : Int)).toNat := by
                      rw [← hpr1, ht0eq, ht0a]
                    have hlen : b.len = b0.len := len_congr hbop
                    have hval : ((t.addr : Int) -
                        ((b.addr : Int) + (b.len : Int))) = v := by
                      rw [htaddr, hbaddr, hlen, Int.toNat_of_nonneg hlv0]
                      ring
                    rw [← hpv, hbarg, hv, hval]
              · rw [if_neg hjr] at hpv
                by_cases hja : b.opcode ∈ hasjabs
                · rw [if_pos hja] at hpv
                  have hja0 : b0.opcode ∈ hasjabs := by rw [← hbop]; exact hja
                  have hjr0 : b0.opcode ∉ hasjrel := by rw [← hbop]; exact hjr
                  have hlab : labelOf b0 = some v := by
                    unfold labelOf
                    rw [if_pos hge0, if_neg hjr0, if_pos hja0, hv]
                  rw [hbtar] at hpv
                  unfold resToD at hpv
                  rw [hlab] at hpv
                  dsimp only at hpv
                  rw [if_pos hv0] at hpv
                  cases hlk : lookupA (e.map (fun p => (p.1, p.2.id)))
                      v.toNat with
                  | none => rw [hlk] at hpv; cases hpv
                  | some tid =>
                    rw [hlk] at hpv
                    dsimp only at hpv
                    rw [hkeys0] at hlk
                    obtain ⟨t0, ht0, ht0a, ht0i⟩ := lookupA_nodesmap hlk
                    cases hft : findNode g.nodes tid with
                    | none => rw [hft] at hpv; cases hpv
                    | some t =>
                      rw [hft] at hpv
                      injection hpv with hpv
                      dsimp only at hpv
                      obtain ⟨htmem, htid⟩ := findNode_mem hft
                      have htρ : ((fun b => (b.addr, b.id)) t) ∈
                          (e.map (fun p => p.2)).map
                            (fun b => (b.addr, b.id)) := by
                        rw [← hρ]
                        exact List.mem_map_of_mem _ htmem
                      obtain ⟨t0', ht0', hpr⟩ := List.mem_map.mp htρ
                      have hpr1 : t0'.addr = t.addr := congrArg Prod.fst hpr
                      have hpr2 : t0'.id = t.id := congrArg Prod.snd hpr
                      have ht0eq : t0' = t0 :=
                        mem_id_unique hN0 ht0 ht0' (by rw [hpr2, htid, ht0i])
                      have htaddr : t.addr = v.toNat := by
                        rw [← hpr1, ht0eq, ht0a]
                      have hval : ((t.addr : Int)) = v := by
                        rw [htaddr, Int.toNat_of_nonneg hv0]
                      rw [← hpv, hbarg, hv, hval]
                · rw [if_neg hja] at hpv
                  injection hpv with hpv
                  exact hpv.symm
          rw [ho]
      have hPFmap : g.nodes.map (PF g.nodes (g.nodes.map (fun b => b.id))) =
          g.nodes := by
        rw [List.map_congr_left hPF]
        simp
      have hg2a : g2a.nodes = g.nodes := hg2a_nodes.trans hPFmap
      obtain ⟨hl2, -, -, -, -⟩ := apply_labels_pres hrf
      have hσ2 : g2.nodes.map (fun b => (b.opcode, b.oparg)) =
          (e.map (fun p => p.2)).map (fun b => (b.opcode, b.oparg)) := by
        have s1 : g2.nodes.map (fun b => (b.opcode, b.oparg)) =
            g2a.nodes.map (fun b => (b.opcode, b.oparg)) :=
          map_proj_of_map_eq coreL (fun x => (x.2.1, x.2.2.1)) _
            (fun b => rfl) hl2
        have s2 : g.nodes.map (fun b => (b.opcode, b.oparg)) =
            g1.nodes.map (fun b => (b.opcode, b.oparg)) :=
          map_proj_of_map_eq coreN (fun x => (x.2.1, x.2.2.1)) _
            (fun b => rfl) hgN
        rw [s1, hg2a, s2, hg1nodes, List.map_map]
        exact List.map_congr_left fun b _ => rfl
      cases hcl2 : calc_lnotab g2 with
      | none => rw [hcl2] at hget; cases hget
      | some lt =>
        rw [hcl2] at hget
        dsimp only at hget
        cases hsg : serializeGo g2.nodes with
        | none => rw [hsg] at hget; cases hget
        | some cc =>
          rw [hsg] at hget
          dsimp only at hget
          injection hget with hget
          have h1 : cc = c := congrArg Prod.fst hget
          have h2 : serializeGo g2.nodes = some code := by
            rw [serializeGo_congr hσ2]
            exact hser
          rw [hsg] at h2
          injection h2 with h2
          rw [← h1, h2]

/-- C1 counterexample: decoding eleven one-byte NOPs with the line table
`[6, 1, 4, 2]` (first line 1) and immediately re-encoding yields the same
`co_code` but the line table `[0, 1, 10, 2]` — not byte-identical to the
original, because `apply_lineno` drops the first pair's address boundary.
The claim that the whole round trip is byte-identical is therefore false. -/
theorem C1_counterexample :
    get_code (((graphInit c1code [6, 1, 4, 2] 1 0).2).getD default) =
      some (c1code, [0, 1, 10, 2]) ∧
    ([0, 1, 10, 2] : List Nat) ≠ [6, 1, 4, 2] := by
  constructor
  · rfl
  · decide

/-- Witness for `C1_co_code_roundtrip` at the stream
`JUMP_ABSOLUTE 4; NOP; NOP` with line table `[0, 1, 2, 1]`. -/
theorem C1_co_code_roundtrip_witness :
    (∀ x ∈ exCode, x < 256) ∧
    graphInit exCode [0, 1, 2, 1] 1 0 =
      ([], some (((graphInit exCode [0, 1, 2, 1] 1 0).2).getD default)) ∧
    get_code (((graphInit exCode [0, 1, 2, 1] 1 0).2).getD default) =
      some ((get_code (((graphInit exCode [0, 1, 2, 1] 1 0).2).getD
        default)).getD default) ∧
    ((get_code (((graphInit exCode [0, 1, 2, 1] 1 0).2).getD
        default)).getD default).1 = exCode :=
  ⟨by decide, by rfl, by rfl,
    C1_co_code_roundtrip exCode [0, 1, 2, 1] 1 0 []
      (((graphInit exCode [0, 1, 2, 1] 1 0).2).getD default)
      ((get_code (((graphInit exCode [0, 1, 2, 1] 1 0).2).getD default)).getD
        default).1
      ((get_code (((graphInit exCode [0, 1, 2, 1] 1 0).2).getD default)).getD
        default).2
      (by decide) (by rfl) (by rfl)⟩

/-- C7: the decode loop advances via `self.bytecodes[offset]` although nodes
are stored at key `base + offset`, so decoding a single NOP at base address 1
raises KeyError (modelled as `none`) instead of producing a one-node graph at
address 1.  This contradicts the decoder contract for an arbitrary base; the
rest of `parse_bytecode` consistently uses `base + offset`, so the lookup is
a slip in the code. -/
theorem C7_nonzero_base_fails : parse_bytecode [9] [] 1 1 = ([], none) := by
  rfl

theorem lnotabGo_amended (ns : List BC) : ∀ (pl : Int) (po : Nat),
    lnotabGo ns pl po = lnotabAmendedGo pl po (ns.map (fun b => (b.addr, b.lnotab))) := by
  induction ns with
  | nil => intro pl po; rfl
  | cons b rest ih =>
    intro pl po
    simp only [List.map_cons, lnotabGo, lnotabAmendedGo]
    cases hln : b.lnotab with
    | none => rfl
    | some ln =>
      by_cases he : ln = pl
      · simp only [if_pos he]
        exact ih pl po
      · simp only [if_neg he]
        by_cases hc : (0 : Int) ≤ (b.addr : Int) - (po : Int) ∧
            (b.addr : Int) - (po : Int) ≤ 255
        · have hc' : (po : Int) ≤ (b.addr : Int) ∧ (b.addr : Int) - (po : Int) ≤ 255 := by
            omega
          rw [if_pos hc, if_pos hc']
          rw [ih ln b.addr]
          have hbd : ((b.addr : Int) - (po : Int)).toNat = b.addr - po := by omega
          cases lnotabAmendedGo ln b.addr (rest.map fun b => (b.addr, b.lnotab)) with
          | none => rfl
          | some l =>
            simp only [Option.map_some]
            rw [hbd]
            rfl
        · have hc' : ¬ ((po : Int) ≤ (b.addr : Int) ∧ (b.addr : Int) - (po : Int) ≤ 255) := by
            omega
          rw [if_neg hc, if_neg hc']

/-- C9 counterexample: on a two-NOP graph whose second instruction jumps
forward 300 lines, `calc_lnotab` emits the masked line delta 44 (`300 & 0xff`),
not the clamp 255 the claim describes; the clamped value the source computes
is stored in a local that is never used. -/
theorem C9_counterexample :
    calc_lnotab exG9 = some [1, 44] ∧
    calc_lnotab_clamped exG9 = some [1, 255] ∧
    some [1, 44] ≠ some [1, 255] := ⟨rfl, rfl, by decide⟩

/-- C9 (amended): the line-table encoder emits one pair per line change with
the raw address delta (failing unless it fits one unsigned byte) and the line
delta reduced modulo 256 — for every graph, `calc_lnotab` agrees with the
independently stated amended encoder. -/
theorem C9_lnotab_deltas (g : Graph) :
    calc_lnotab g = calc_lnotab_amended g := by
  unfold calc_lnotab calc_lnotab_amended
  cases hns : g.nodes with
  | nil => rfl
  | cons h t => exact lnotabGo_amended (h :: t) g.co_firstlineno h.addr

/-- C3 counterexample: after deleting the NOP that a `JUMP_ABSOLUTE` in
`exG` targets, running cross-reference resolution before operand patching
(the order the claim states) fails — the stale operand resolves to a
non-boundary address and raises KeyError — while the source's
patch-then-resolve order succeeds. -/
theorem C3_counterexample :
    (refactor exGdel).isSome = true ∧ refactor_specOrder exGdel = none :=
  ⟨rfl, rfl⟩

theorem reindexG_nodes (g : Graph) :
    (reindexG g).nodes = (reindexGo g.nodes g.base).1 := by
  have h := Prod.mk.eta (p := reindexGo g.nodes g.base)
  unfold reindexG
  rw [← h]

theorem reindexG_bytecodes (g : Graph) :
    (reindexG g).bytecodes = (reindexGo g.nodes g.base).2 := by
  have h := Prod.mk.eta (p := reindexGo g.nodes g.base)
  unfold reindexG
  rw [← h]

theorem reindexG_base (g : Graph) : (reindexG g).base = g.base := by
  have h := Prod.mk.eta (p := reindexGo g.nodes g.base)
  unfold reindexG
  rw [← h]

theorem reindexG_fl (g : Graph) : (reindexG g).co_firstlineno = g.co_firstlineno := by
  have h := Prod.mk.eta (p := reindexGo g.nodes g.base)
  unfold reindexG
  rw [← h]

theorem reindexG_cl (g : Graph) : (reindexG g).co_lnotab = g.co_lnotab := by
  have h := Prod.mk.eta (p := reindexGo g.nodes g.base)
  unfold reindexG
  rw [← h]

theorem reindexG_core (g : Graph) :
    (reindexG g).nodes.map coreR = g.nodes.map coreR := by
  rw [reindexG_nodes]
  exact reindexGo_core g.nodes g.base

theorem reindexG_nodup {g : Graph} (hN : (g.nodes.map (fun b => b.id)).Nodup) :
    ((reindexG g).nodes.map (fun b => b.id)).Nodup := by
  rw [map_id_of_map_eq coreR (fun x => x.1) (fun _ => rfl) (reindexG_core g)]
  exact hN

/-- C2: emitting a graph that contains a jump-class node whose `target` was
never resolved (still `None`) fails before any byte is produced —
`patch_opargs` dereferences `current.target.addr`, raising AttributeError,
so `get_code` returns nothing at all. -/
theorem C2_dangling_target_fails (g : Graph)
    (hN : (g.nodes.map (fun b => b.id)).Nodup)
    (b : BC) (hb : b ∈ g.nodes)
    (hj : b.opcode ∈ hasjrel ∨ b.opcode ∈ hasjabs)
    (ht : b.target = none) :
    get_code g = none := by
  obtain ⟨b', hb', he⟩ := exists_of_map_eq coreR (reindexG_core g) hb
  have he' : b'.id = b.id ∧ b'.opcode = b.opcode ∧ b'.target = b.target := by
    simp only [coreR, Prod.mk.injEq] at he
    exact ⟨he.1, he.2.1, he.2.2.2.2.1⟩
  have hge : ¬ b'.opcode < HAVE_ARGUMENT := by
    rw [he'.2.1]
    rcases hj with h | h
    · exact Nat.not_lt.mpr (jrel_ge _ h)
    · exact Nat.not_lt.mpr (jabs_ge _ h)
  have hj' : b'.opcode ∈ hasjrel ∨ b'.opcode ∈ hasjabs := by
    rw [he'.2.1]; exact hj
  have ht' : b'.target = none := by rw [he'.2.2]; exact ht
  have hfold : patchFold (reindexG g)
      ((reindexG g).nodes.map (fun x => x.id)) = none :=
    patchFold_none (reindexG_nodup hN) hb'
      (List.mem_map_of_mem _ hb') hge hj' ht'
  have hpatch : patch_opargs (reindexG g) = none := hfold
  unfold get_code refactor
  rw [hpatch]

/-- Witness for `C2_dangling_target_fails` at the one-node graph `exG2`
holding a `JUMP_FORWARD` with `target = None`. -/
theorem C2_dangling_target_fails_witness :
    (exG2.nodes.map (fun b => b.id)).Nodup ∧ get_code exG2 = none :=
  ⟨by decide,
   C2_dangling_target_fails exG2 (by decide)
     ⟨0, 110, some 0, 0, some 1, none, []⟩ (by decide)
     (Or.inl (by decide)) (by decide)⟩

/-- C8: after `refactor`, node addresses are assigned as a running offset
from `base`, each node sitting exactly at the previous node's address plus
its length — the re-addressing walk packs the list and the later patch and
resolution phases never write an address. -/
theorem C8_address_monotonic (g g2 : Graph) (h : refactor g = some g2) :
    packedFrom g.base g2.nodes = true := by
  unfold refactor at h
  cases hpt : patch_opargs (reindexG g) with
  | none => rw [hpt] at h; cases h
  | some gp =>
    rw [hpt] at h
    dsimp only at h
    obtain ⟨hp1, -, -, -, -⟩ := patchFold_pres hpt
    obtain ⟨hl1, -, -, -, -⟩ := apply_labels_pres h
    have h2 : g2.nodes.map (fun b => (b.opcode, b.addr)) =
        gp.nodes.map (fun b => (b.opcode, b.addr)) :=
      map_proj_of_map_eq coreL (fun x => (x.2.1, x.2.2.2.1)) _ (fun b => rfl) hl1
    have h3 : gp.nodes.map (fun b => (b.opcode, b.addr)) =
        (reindexG g).nodes.map (fun b => (b.opcode, b.addr)) :=
      map_proj_of_map_eq coreP (fun x => (x.2.1, x.2.2.1)) _ (fun b => rfl) hp1
    rw [packedFrom_congr (h2.trans h3) g.base, reindexG_nodes]
    exact reindexGo_packed g.nodes g.base

/-- Witness for `C8_address_monotonic` at the decoded three-instruction
graph `exG`. -/
theorem C8_address_monotonic_witness :
    refactor exG = some ((refactor exG).getD default) ∧
    packedFrom exG.base ((refactor exG).getD default).nodes = true :=
  ⟨by rfl, C8_address_monotonic exG ((refactor exG).getD default) (by rfl)⟩

theorem FF_target (D : List (Nat × Nat)) (ns0 : List BC) (P : List Nat) (b : BC) :
    (FF D ns0 P b).target = if b.id ∈ P then resToD D b else none := rfl

theorem FF_xrefs (D : List (Nat × Nat)) (ns0 : List BC) (P : List Nat) (b : BC) :
    (FF D ns0 P b).xrefs =
      P.filter (fun j => resOfD D ns0 j = some b.id) := rfl

/-- C6: cross-reference resolution establishes a symmetric, duplicate-free
relation — after `apply_labels` succeeds on a graph with distinct node
identities, a node `r` appears in `n.xrefs` exactly when `r.target` is `n`,
and no `xrefs` list contains duplicates. -/
theorem C6_xref_symmetry (g g' : Graph)
    (hN : (g.nodes.map (fun b => b.id)).Nodup)
    (h : apply_labels g = some g') :
    (∀ n ∈ g'.nodes, ∀ r ∈ g'.nodes, (r.id ∈ n.xrefs ↔ r.target = some n.id)) ∧
    (∀ n ∈ g'.nodes, n.xrefs.Nodup) := by
  obtain ⟨hn, -, -, -, -⟩ := apply_labels_main hN h
  constructor
  · intro n hnm r hrm
    rw [hn] at hnm hrm
    obtain ⟨n0, hn0, hFn⟩ := List.mem_map.mp hnm
    obtain ⟨r0, hr0, hFr⟩ := List.mem_map.mp hrm
    subst hFn
    subst hFr
    have hrmem : r0.id ∈ g.nodes.map (fun b => b.id) := List.mem_map_of_mem _ hr0
    have hres := resOfD_eq (D := g.bytecodes) hN hr0
    simp only [FF_id, FF_xrefs, FF_target]
    rw [if_pos hrmem, ← hres]
    constructor
    · intro hmem
      exact of_decide_eq_true (List.mem_filter.mp hmem).2
    · intro ht
      exact List.mem_filter.mpr ⟨hrmem, decide_eq_true ht⟩
  · intro n hnm
    rw [hn] at hnm
    obtain ⟨n0, hn0, hFn⟩ := List.mem_map.mp hnm
    subst hFn
    simp only [FF_xrefs]
    exact hN.filter _

/-- Witness for `C6_xref_symmetry` at the decoded three-instruction graph
`exG` (one absolute jump into two NOPs). -/
theorem C6_xref_symmetry_witness :
    (exG.nodes.map (fun b => b.id)).Nodup ∧
    apply_labels exG = some ((apply_labels exG).getD default) ∧
    (∀ n ∈ ((apply_labels exG).getD default).nodes,
      ∀ r ∈ ((apply_labels exG).getD default).nodes,
        (r.id ∈ n.xrefs ↔ r.target = some n.id)) :=
  ⟨by decide, by rfl,
   (C6_xref_symmetry exG ((apply_labels exG).getD default) (by decide) (by rfl)).1⟩

/-- C3 (amended): `refactor` first walks the list assigning packed addresses
from `base` and rebuilding the address-keyed dict, then patches every jump
operand against the targets held from before the walk, and only then —
last, not first — re-runs cross-reference resolution: the result is exactly
`apply_labels` of the patched graph, whose nodes are the closed-form patch
of the re-addressed nodes. -/
theorem C3_patch_then_resolve (g : Graph)
    (hN : (g.nodes.map (fun b => b.id)).Nodup)
    (gp : Graph) (hp : patch_opargs (reindexG g) = some gp) :
    refactor g = apply_labels gp ∧
    packedFrom g.base (reindexG g).nodes = true ∧
    (reindexG g).bytecodes = (reindexG g).nodes.map (fun b => (b.addr, b.id)) ∧
    gp.nodes = (reindexG g).nodes.map
      (PF (reindexG g).nodes ((reindexG g).nodes.map (fun b => b.id))) := by
  refine ⟨?_, ?_, ?_, ?_⟩
  · unfold refactor
    rw [hp]
  · rw [reindexG_nodes]
    exact reindexGo_packed g.nodes g.base
  · rw [reindexG_bytecodes, reindexG_nodes]
    exact reindexGo_dict g.nodes g.base
  · exact (patch_opargs_main (reindexG_nodup hN) hp).1

/-- Witness for `C3_patch_then_resolve` at `exGdel`, the decoded jump graph
with its middle NOP deleted. -/
theorem C3_patch_then_resolve_witness :
    (exGdel.nodes.map (fun b => b.id)).Nodup ∧
    patch_opargs (reindexG exGdel) =
      some ((patch_opargs (reindexG exGdel)).getD default) ∧
    refactor exGdel =
      apply_labels ((patch_opargs (reindexG exGdel)).getD default) :=
  ⟨by decide, by rfl,
   (C3_patch_then_resolve exGdel (by decide)
     ((patch_opargs (reindexG exGdel)).getD default) (by rfl)).1⟩

theorem jabs_not_jrel : ∀ x ∈ hasjabs, x ∉ hasjrel := by decide

/-- C4 counterexample: decoding `JUMP_FORWARD 100; (truncated)` reports the
nonlinear target 103 as a diagnostic, yet no graph is produced — decoding
aborts instead of completing with the diagnostic as the claim states. -/
theorem C4_counterexample :
    parse_bytecode [110, 100, 0] [] 1 0 = ([103], none) := rfl

/-- C4 (amended): a jump destination that is not an instruction boundary is
reported as a diagnostic, but decoding then aborts — whenever
`parse_bytecode` emits any diagnostic, the final cross-reference resolution
raises KeyError on that same unresolvable destination and no graph is
returned. -/
theorem C4_diag_implies_abort (code cl : List Nat) (fl : Int) (base : Nat)
    (hbytes : ∀ x ∈ code, x < 256)
    (h : (parse_bytecode code cl fl base).1 ≠ []) :
    (parse_bytecode code cl fl base).2 = none := by
  by_cases hb : base = 0
  · subst hb
    unfold parse_bytecode at h ⊢
    cases hp : parseLoop code 0 code.length 0 0 [] with
    | none => rfl
    | some pr =>
      obtain ⟨dict, targets⟩ := pr
      rw [hp] at h
      dsimp only at h ⊢
      obtain ⟨e, he1, he2, he3, htgt⟩ :=
        parseLoop_sound code code.length 0 0 [] dict targets hp hbytes
          (by intro p hp0; cases hp0)
      have he0 : dict = e := by simpa using he1
      subst he0
      cases hl : lookupA (dict.map (fun p => (p.1, p.2.id))) 0 with
      | none => rfl
      | some x =>
        rw [hl] at h
        dsimp only at h ⊢
        cases ha : apply_labels ⟨0, fl, cl, dict.map (fun p => p.2),
            dict.map (fun p => (p.1, p.2.id))⟩ with
        | none => rfl
        | some g1 =>
          rw [ha] at h
          dsimp only at h
          obtain ⟨t, hdg⟩ := List.exists_mem_of_ne_nil _ h
          have htmem := (List.mem_filter.mp hdg).1
          have hall := (List.mem_filter.mp hdg).2
          obtain ⟨p, hpe, hpt⟩ := htgt t htmem
          have hbmem : p.2 ∈ dict.map (fun p => p.2) :=
            List.mem_map_of_mem _ hpe
          obtain ⟨-, -, -, -, hoparg, -⟩ := entriesOK_wf he2 p hpe
          have hjump : p.2.opcode ∈ hasjrel ∨ p.2.opcode ∈ hasjabs := by
            by_contra hcon
            push_neg at hcon
            unfold BC.get_target_addr at hpt
            dsimp only at hpt
            rw [if_neg hcon.2, if_neg hcon.1] at hpt
            cases hpt
          have hge : HAVE_ARGUMENT ≤ p.2.opcode := by
            rcases hjump with hj | hj
            exacts [jrel_ge _ hj, jabs_ge _ hj]
          obtain ⟨v, hv, hv0, hv1⟩ := hoparg hge
          have hlab : labelOf p.2 = some t ∧ 0 ≤ t := by
            rcases hjump with hj | hj
            · have hnabs : p.2.opcode ∉ hasjabs := jrel_not_jabs _ hj
              unfold BC.get_target_addr at hpt
              dsimp only at hpt
              rw [if_neg hnabs, if_pos hj, hv] at hpt
              simp only [Option.map_some'] at hpt
              injection hpt with hpt
              constructor
              · unfold labelOf
                rw [if_pos hge, if_pos hj, hv]
                simp only [Option.map_some']
                rw [hpt]
              · rw [← hpt]
                omega
            · have hnrel : p.2.opcode ∉ hasjrel := jabs_not_jrel _ hj
              unfold BC.get_target_addr at hpt
              dsimp only at hpt
              rw [if_pos hj, hv] at hpt
              injection hpt with hpt
              constructor
              · unfold labelOf
                rw [if_pos hge, if_neg hnrel, if_pos hj, hv, hpt]
              · rw [← hpt]
                exact hv0
          have hlook : lookupA (dict.map (fun p => (p.1, p.2.id)))
              t.toNat = none := by
            unfold lookupA
            rw [List.find?_eq_none.mpr ?_]
            · rfl
            · intro q hq
              obtain ⟨p0, hp0, hq0⟩ := List.mem_map.mp hq
              have hne : (p0.1 : Int) ≠ t :=
                of_decide_eq_true (List.all_eq_true.mp hall p0 hp0)
              rw [← hq0]
              simp only [decide_eq_true_eq]
              intro heq
              apply hne
              rw [heq]
              exact Int.toNat_of_nonneg hlab.2
          have habort : apply_labels ⟨0, fl, cl, dict.map (fun p => p.2),
              dict.map (fun p => (p.1, p.2.id))⟩ = none :=
            apply_labels_none (entriesOK_nodup he2) hbmem hlab.1 hlab.2 hlook
          rw [ha] at habort
          cases habort
  · rcases List.eq_nil_or_concat code with hc | hcc
    · subst hc
      exact absurd rfl h
    · have hcode : code ≠ [] := by
        obtain ⟨l, a, rfl⟩ := hcc
        simp
      unfold parse_bytecode
      rw [parseLoop_base_ne hb hcode code.length 0]

/-- Witness for `C4_diag_implies_abort` at the stream
`JUMP_FORWARD 100; (truncated operand bytes)`. -/
theorem C4_diag_implies_abort_witness :
    (∀ x ∈ [110, 100, 0], x < 256) ∧
    (parse_bytecode [110, 100, 0] [] 1 0).1 ≠ [] ∧
    (parse_bytecode [110, 100, 0] [] 1 0).2 = none :=
  ⟨by decide, by decide,
   C4_diag_implies_abort [110, 100, 0] [] 1 0 (by decide) (by decide)⟩

theorem delFoldS (mid : Nat) : ∀ (L : List Nat) (ns : List BC),
    List.foldl (fun ns x =>
      updNode (updNode ns x (fun b => { b with target := some mid })) mid
        (fun b => { b with xrefs := b.xrefs ++ [x] })) ns L
    = ns.map (delApply mid L) := by
  intro L
  induction L with
  | nil =>
    intro ns
    simp only [List.foldl_nil]
    have h1 : ∀ b ∈ ns, delApply mid [] b = b := by
      intro b _
      simp [delApply]
    exact ((List.map_congr_left h1).trans (List.map_id ns)).symm
  | cons x L' ih =>
    intro ns
    rw [List.foldl_cons, ih]
    simp only [updNode, List.map_map]
    refine List.map_congr_left (fun b _ => ?_)
    simp only [Function.comp_apply, delApply]
    by_cases hx : b.id = x
    · by_cases hm : b.id = mid
      · have hxm : x = mid := by rw [← hx]; exact hm
        simp [hx, hm, hxm, List.mem_cons, List.append_assoc]
      · have hxm : ¬ x = mid := fun h => hm (hx.trans h)
        simp [hx, hm, hxm, List.mem_cons]
    · by_cases hm : b.id = mid
      · have hxm : ¬ mid = x := fun h => hx (hm.trans h)
        simp [hx, hm, hxm, List.mem_cons, List.append_assoc]
      · simp [hx, hm, List.mem_cons]

theorem delFoldN : ∀ (L : List Nat) (ns : List BC),
    List.foldl (fun ns x =>
      updNode ns x (fun b => { b with target := none })) ns L
    = ns.map (delApplyN L) := by
  intro L
  induction L with
  | nil =>
    intro ns
    simp only [List.foldl_nil]
    have h1 : ∀ b ∈ ns, delApplyN [] b = b := by
      intro b _
      simp [delApplyN]
    exact ((List.map_congr_left h1).trans (List.map_id ns)).symm
  | cons x L' ih =>
    intro ns
    rw [List.foldl_cons, ih]
    simp only [updNode, List.map_map]
    refine List.map_congr_left (fun b _ => ?_)
    simp only [Function.comp_apply, delApplyN]
    by_cases hx : b.id = x <;> simp [hx, List.mem_cons]

theorem mem_eraseP_of_not {α : Type} {p : α → Bool} :
    ∀ {l : List α} {a : α}, a ∈ l → ¬ p a = true → a ∈ l.eraseP p := by
  intro l
  induction l with
  | nil => intro a h _; cases h
  | cons c t ih =>
    intro a h hp
    cases hc : p c with
    | true =>
      rcases List.mem_cons.mp h with he | hm
      · subst he; exact absurd hc hp
      · simpa [List.eraseP_cons, hc] using hm
    | false =>
      rcases List.mem_cons.mp h with he | hm
      · subst he; simp [List.eraseP_cons, hc]
      · simp only [List.eraseP_cons, hc, cond_false]
        exact List.mem_cons_of_mem _ (ih hm hp)

theorem eraseP_id_ne {i : Nat} : ∀ {ns : List BC},
    (ns.map (fun b => b.id)).Nodup →
    ∀ b ∈ ns.eraseP (fun b => b.id = i), b.id ≠ i := by
  intro ns
  induction ns with
  | nil => intro _ b hb; cases hb
  | cons c t ih =>
    intro hN b hb
    rw [List.map_cons, List.nodup_cons] at hN
    by_cases hc : c.id = i
    · rw [List.eraseP_cons, show (decide (c.id = i)) = true from decide_eq_true hc,
        cond_true] at hb
      intro hbi
      apply hN.1
      rw [hc, ← hbi]
      exact List.mem_map_of_mem _ hb
    · rw [List.eraseP_cons, show (decide (c.id = i)) = false from
        decide_eq_false hc, cond_false] at hb
      rcases List.mem_cons.mp hb with he | hm
      · subst he; exact hc
      · exact ih hN.2 b hm

theorem findNode_id {ns : List BC} {i : Nat} {b : BC}
    (h : findNode ns i = some b) : b.id = i := by
  unfold findNode at h
  have h2 := List.find?_some h
  simp only [decide_eq_true_eq] at h2
  exact h2

theorem delApplyN_id (L : List Nat) (b : BC) : (delApplyN L b).id = b.id := by
  unfold delApplyN
  split <;> rfl

theorem delApplyN_xrefs (L : List Nat) (b : BC) :
    (delApplyN L b).xrefs = b.xrefs := by
  unfold delApplyN
  split <;> rfl

/-- C10: `delete_node` leaves a stale cross-reference — when the deleted
node `i` jumps to `tid` and sits in `tid`'s `xrefs`, after deletion some
node with identity `tid` still lists `i` among its `xrefs`, even though no
node with identity `i` remains: the xref symmetry of C6 is broken until
`apply_labels` runs again. -/
theorem C10_stale_xref (g : Graph)
    (hN : (g.nodes.map (fun b => b.id)).Nodup)
    (i tid : Nat) (n t : BC)
    (hn : findNode g.nodes i = some n)
    (htn : findNode g.nodes tid = some t)
    (hti : tid ≠ i)
    (hmem : i ∈ t.xrefs)
    (g' : Graph) (hdel : delete_node g i = some g') :
    (∃ t' ∈ g'.nodes, t'.id = tid ∧ i ∈ t'.xrefs) ∧
    (∀ b ∈ g'.nodes, b.id ≠ i) := by
  unfold delete_node at hdel
  rw [hn] at hdel
  dsimp only at hdel
  cases hlk : lookupA g.bytecodes n.addr with
  | none => rw [hlk] at hdel; cases hdel
  | some y =>
    rw [hlk] at hdel
    dsimp only at hdel
    injection hdel with hdel
    subst hdel
    cases hs : succId g.nodes i with
    | some m =>
      dsimp only
      rw [delFoldS m]
      refine ⟨⟨delApply m n.xrefs t, ?_,
        (show (delApply m n.xrefs t).id = t.id from rfl).trans
          (findNode_id htn), ?_⟩, ?_⟩
      · apply mem_eraseP_of_not
        · exact List.mem_map_of_mem _ (findNode_mem htn).1
        · simp only [decide_eq_true_eq]
          show ¬ t.id = i
          rw [findNode_id htn]
          exact hti
      · show i ∈ if t.id = m then t.xrefs ++ n.xrefs else t.xrefs
        by_cases htm : t.id = m
        · rw [if_pos htm]
          exact List.mem_append_left _ hmem
        · rw [if_neg htm]
          exact hmem
      · have he : (g.nodes.map (delApply m n.xrefs)).map (fun b => b.id) =
            g.nodes.map (fun b => b.id) := by
          rw [List.map_map]
          exact List.map_congr_left (fun b _ => rfl)
        exact eraseP_id_ne (he ▸ hN)
    | none =>
      dsimp only
      rw [delFoldN]
      refine ⟨⟨delApplyN n.xrefs t, ?_,
        (delApplyN_id _ _).trans (findNode_id htn), ?_⟩, ?_⟩
      · apply mem_eraseP_of_not
        · exact List.mem_map_of_mem _ (findNode_mem htn).1
        · simp only [decide_eq_true_eq]
          rw [delApplyN_id, findNode_id htn]
          exact hti
      · rw [delApplyN_xrefs]
        exact hmem
      · have he : (g.nodes.map (delApplyN n.xrefs)).map (fun b => b.id) =
            g.nodes.map (fun b => b.id) := by
          rw [List.map_map]
          exact List.map_congr_left (fun b _ => delApplyN_id _ _)
        exact eraseP_id_ne (he ▸ hN)

/-- Witness for `C10_stale_xref` at `exC5` with the jump node (id 0)
deleted: the first NOP (id 1) keeps 0 in its `xrefs` while no node with id
0 remains. -/
theorem C10_stale_xref_witness :
    (exC5.nodes.map (fun b => b.id)).Nodup ∧
    (1 : Nat) ≠ 0 ∧
    0 ∈ ((findNode exC5.nodes 1).getD ⟨0, 0, none, 0, none, none, []⟩).xrefs ∧
    ((∃ t' ∈ ((delete_node exC5 0).getD default).nodes,
        t'.id = 1 ∧ 0 ∈ t'.xrefs) ∧
     (∀ b ∈ ((delete_node exC5 0).getD default).nodes, b.id ≠ 0)) :=
  ⟨by decide, by decide, by decide,
   C10_stale_xref exC5 (by decide) 0 1
     ((findNode exC5.nodes 0).getD ⟨0, 0, none, 0, none, none, []⟩)
     ((findNode exC5.nodes 1).getD ⟨0, 0, none, 0, none, none, []⟩)
     (by rfl) (by rfl) (by decide) (by decide)
     ((delete_node exC5 0).getD default) (by rfl)⟩

theorem succId_spec : ∀ {ns : List BC} {i mid : Nat}, succId ns i = some mid →
    ∃ l1 a b l2, ns = l1 ++ a :: b :: l2 ∧ a.id = i ∧ b.id = mid := by
  intro ns
  induction ns with
  | nil => intro i mid h; cases h
  | cons c t ih =>
    intro i mid h
    unfold succId at h
    by_cases hc : c.id = i
    · rw [if_pos hc] at h
      cases t with
      | nil => cases h
      | cons b t2 =>
        rw [List.head?_cons, Option.map_some'] at h
        injection h with h
        exact ⟨[], c, b, t2, rfl, hc, h⟩
    · rw [if_neg hc] at h
      obtain ⟨l1, a, b, l2, he, ha, hb⟩ := ih h
      exact ⟨c :: l1, a, b, l2, by rw [he]; rfl, ha, hb⟩

theorem succId_ne {ns : List BC} (hN : (ns.map (fun b => b.id)).Nodup)
    {i mid : Nat} (h : succId ns i = some mid) : mid ≠ i := by
  obtain ⟨l1, a, b, l2, hsplit, ha, hb⟩ := succId_spec h
  subst hsplit
  rw [List.map_append, List.map_cons, List.map_cons] at hN
  have h2 := (List.nodup_append.mp hN).2.1
  rw [List.nodup_cons] at h2
  intro he
  apply h2.1
  rw [ha, ← he, ← hb]
  exact List.mem_cons_self _ _

theorem succId_mem {ns : List BC} {i mid : Nat} (h : succId ns i = some mid) :
    ∃ m ∈ ns, m.id = mid := by
  obtain ⟨l1, a, b, l2, hsplit, -, hb⟩ := succId_spec h
  refine ⟨b, ?_, hb⟩
  rw [hsplit]
  exact List.mem_append_right _ (List.mem_cons_of_mem _ (List.mem_cons_self _ _))

theorem len_pos (b : BC) : 1 ≤ b.len := by
  unfold BC.len
  split <;> omega

theorem packed_addr_lb : ∀ (ns : List BC) (off : Nat),
    packedFrom off ns = true → ∀ b ∈ ns, off ≤ b.addr := by
  intro ns
  induction ns with
  | nil => intro off _ b hb; cases hb
  | cons c rest ih =>
    intro off hp b hb
    simp only [packedFrom, Bool.and_eq_true, decide_eq_true_eq] at hp
    rcases List.mem_cons.mp hb with he | hm
    · subst he; omega
    · have := ih (off + c.len) hp.2 b hm
      omega

theorem packed_addr_nodup : ∀ (ns : List BC) (off : Nat),
    packedFrom off ns = true → (ns.map (fun b => b.addr)).Nodup := by
  intro ns
  induction ns with
  | nil => intro off _; exact List.nodup_nil
  | cons c rest ih =>
    intro off hp
    simp only [packedFrom, Bool.and_eq_true, decide_eq_true_eq] at hp
    rw [List.map_cons, List.nodup_cons]
    refine ⟨?_, ih _ hp.2⟩
    intro hmem
    obtain ⟨b, hb, hbe⟩ := List.mem_map.mp hmem
    have hlb := packed_addr_lb rest (off + c.len) hp.2 b hb
    have hl := len_pos c
    omega

theorem lookupA_nodesmap_self : ∀ {ns : List BC},
    (ns.map (fun b => b.addr)).Nodup →
    ∀ {m : BC}, m ∈ ns →
    lookupA (ns.map (fun b => (b.addr, b.id))) m.addr = some m.id := by
  intro ns
  induction ns with
  | nil => intro _ m hm; cases hm
  | cons c rest ih =>
    intro hA m hm
    rw [List.map_cons, List.nodup_cons] at hA
    rcases List.mem_cons.mp hm with he | hm'
    · subst he
      unfold lookupA
      rw [List.map_cons, List.find?_cons_of_pos]
      · rfl
      · simp
    · have hne : ¬ c.addr = m.addr := by
        intro he
        apply hA.1
        rw [he]
        exact List.mem_map_of_mem _ hm'
      unfold lookupA
      rw [List.map_cons, List.find?_cons_of_neg]
      · exact ih hA.2 hm'
      · simpa using hne

/-- C5: deleting a jumped-to node redirects its referrers to its successor
`mid` both immediately and across the following relocation — after
`delete_node` the referrer `r` holds `target = mid` and sits in `mid`'s
`xrefs`, and after `refactor` (re-addressing, re-patching, re-resolution)
the node with identity `r` again holds `target = mid` and sits in the
`xrefs` of the node with identity `mid`. -/
theorem C5_deletion_redirect (g : Graph)
    (hN : (g.nodes.map (fun b => b.id)).Nodup)
    (i mid : Nat) (n : BC)
    (hn : findNode g.nodes i = some n)
    (hsucc : succId g.nodes i = some mid)
    (r : Nat) (hr : r ∈ n.xrefs) (hri : r ≠ i)
    (rb : BC) (hrb : findNode g.nodes r = some rb)
    (hrj : rb.opcode ∈ hasjrel ∨ rb.opcode ∈ hasjabs)
    (g1 : Graph) (hdel : delete_node g i = some g1)
    (g2 : Graph) (href : refactor g1 = some g2) :
    ((∃ b' ∈ g1.nodes, b'.id = r ∧ b'.target = some mid) ∧
     (∃ m1 ∈ g1.nodes, m1.id = mid ∧ r ∈ m1.xrefs)) ∧
    ((∃ b'' ∈ g2.nodes, b''.id = r ∧ b''.target = some mid) ∧
     (∃ m2 ∈ g2.nodes, m2.id = mid ∧ r ∈ m2.xrefs)) := by
  have hmi : mid ≠ i := succId_ne hN hsucc
  obtain ⟨mb, hmb, hmbid⟩ := succId_mem hsucc
  have rbmem : rb ∈ g.nodes := (findNode_mem hrb).1
  have hrbid : rb.id = r := (findNode_mem hrb).2
  unfold delete_node at hdel
  rw [hn] at hdel
  dsimp only at hdel
  rw [hsucc] at hdel
  dsimp only at hdel
  cases hlk : lookupA g.bytecodes n.addr with
  | none => rw [hlk] at hdel; cases hdel
  | some y =>
    rw [hlk] at hdel
    dsimp only at hdel
    injection hdel with hdel
    rw [delFoldS mid] at hdel
    have hn1 : g1.nodes =
        (g.nodes.map (delApply mid n.xrefs)).eraseP (fun b => b.id = i) := by
      rw [← hdel]
    have hrmem : rb.id ∈ n.xrefs := by rw [hrbid]; exact hr
    have ht' : (delApply mid n.xrefs rb).target = some mid := by
      show (if rb.id ∈ n.xrefs then some mid else rb.target) = some mid
      rw [if_pos hrmem]
    have hb'mem : delApply mid n.xrefs rb ∈ g1.nodes := by
      rw [hn1]
      apply mem_eraseP_of_not
      · exact List.mem_map_of_mem _ rbmem
      · simp only [decide_eq_true_eq]
        show ¬ rb.id = i
        rw [hrbid]
        exact hri
    have hm1x : r ∈ (delApply mid n.xrefs mb).xrefs := by
      show r ∈ (if mb.id = mid then mb.xrefs ++ n.xrefs else mb.xrefs)
      rw [if_pos hmbid]
      exact List.mem_append_right _ hr
    have hm1mem : delApply mid n.xrefs mb ∈ g1.nodes := by
      rw [hn1]
      apply mem_eraseP_of_not
      · exact List.mem_map_of_mem _ hmb
      · simp only [decide_eq_true_eq]
        show ¬ mb.id = i
        rw [hmbid]
        exact hmi
    have hN1 : (g1.nodes.map (fun b => b.id)).Nodup := by
      rw [hn1]
      have he : (g.nodes.map (delApply mid n.xrefs)).map (fun b => b.id) =
          g.nodes.map (fun b => b.id) := by
        rw [List.map_map]
        exact List.map_congr_left (fun b _ => rfl)
      have hsub :=
        ((g.nodes.map (delApply mid n.xrefs)).eraseP_sublist
          (p := fun b => b.id = i)).map (fun b => b.id)
      rw [he] at hsub
      exact hN.sublist hsub
    unfold refactor at href
    cases hpt : patch_opargs (reindexG g1) with
    | none => rw [hpt] at href; cases href
    | some gp =>
      rw [hpt] at href
      dsimp only at href
      have hNr := reindexG_nodup hN1
      have hcoreR := reindexG_core g1
      have hpacked : packedFrom g1.base (reindexG g1).nodes = true := by
        rw [reindexG_nodes]
        exact reindexGo_packed _ _
      have hdict : (reindexG g1).bytecodes =
          (reindexG g1).nodes.map (fun b => (b.addr, b.id)) := by
        rw [reindexG_bytecodes, reindexG_nodes]
        exact reindexGo_dict _ _
      obtain ⟨br, hbr, hbre⟩ := exists_of_map_eq coreR hcoreR hb'mem
      have hbr' : br.id = r ∧ br.opcode = rb.opcode ∧ br.target = some mid := by
        simp only [coreR, Prod.mk.injEq] at hbre
        exact ⟨hbre.1.trans hrbid, hbre.2.1, hbre.2.2.2.2.1.trans ht'⟩
      obtain ⟨m', hm', hm'e⟩ := exists_of_map_eq coreR hcoreR hm1mem
      have hm'id : m'.id = mid := by
        simp only [coreR, Prod.mk.injEq] at hm'e
        exact hm'e.1.trans hmbid
      obtain ⟨hgp, hgpb, hgpd, -, -⟩ := patch_opargs_main hNr hpt
      have hbrmemP : br.id ∈ (reindexG g1).nodes.map (fun b => b.id) :=
        List.mem_map_of_mem _ hbr
      have hrj' : br.opcode ∈ hasjrel ∨ br.opcode ∈ hasjabs := by
        rw [hbr'.2.1]
        exact hrj
      have hgeb : HAVE_ARGUMENT ≤ br.opcode := by
        rcases hrj' with hj | hj
        exacts [jrel_ge _ hj, jabs_ge _ hj]
      have hfindm : findNode (reindexG g1).nodes mid = some m' := by
        have h0 := findNode_of_nodup hNr hm'
        rwa [hm'id] at h0
      obtain ⟨V, hgpr, hlabel⟩ : ∃ V : Int,
          PF (reindexG g1).nodes ((reindexG g1).nodes.map (fun b => b.id)) br =
            { br with oparg := some V } ∧
          labelOf { br with oparg := some V } = some (m'.addr : Int) := by
        rcases hrj' with hj | hj
        · refine ⟨(m'.addr : Int) - ((br.addr : Int) + (br.len : Int)), ?_, ?_⟩
          · unfold PF
            rw [if_pos hbrmemP]
            have hpv : patchValD (reindexG g1).nodes br =
                some (some ((m'.addr : Int) -
                  ((br.addr : Int) + (br.len : Int)))) := by
              unfold patchValD
              rw [if_neg (Nat.not_lt.mpr hgeb), if_pos hj, hbr'.2.2]
              dsimp only
              rw [hfindm]
              rfl
            rw [hpv]
          · unfold labelOf
            rw [if_pos hgeb, if_pos hj]
            show (Option.map _ (some ((m'.addr : Int) -
              ((br.addr : Int) + (br.len : Int))))) = some (m'.addr : Int)
            simp only [Option.map_some']
            congr 1
            show (br.addr : Int) +
              ((m'.addr : Int) - ((br.addr : Int) + (br.len : Int))) +
              (br.len : Int) = (m'.addr : Int)
            ring
        · have hnotrel : br.opcode ∉ hasjrel := jabs_not_jrel _ hj
          refine ⟨(m'.addr : Int), ?_, ?_⟩
          · unfold PF
            rw [if_pos hbrmemP]
            have hpv : patchValD (reindexG g1).nodes br =
                some (some (m'.addr : Int)) := by
              unfold patchValD
              rw [if_neg (Nat.not_lt.mpr hgeb), if_neg hnotrel, if_pos hj,
                hbr'.2.2]
              dsimp only
              rw [hfindm]
              rfl
            rw [hpv]
          · unfold labelOf
            rw [if_pos hgeb, if_neg hnotrel, if_pos hj]
      have hgprmem : ({ br with oparg := some V } : BC) ∈ gp.nodes := by
        rw [hgp, ← hgpr]
        exact List.mem_map_of_mem _ hbr
      have hNgp : (gp.nodes.map (fun b => b.id)).Nodup := by
        rw [hgp, List.map_map]
        have hpt2 : ∀ b ∈ (reindexG g1).nodes,
            ((fun b => b.id) ∘
              PF (reindexG g1).nodes
                ((reindexG g1).nodes.map (fun b => b.id))) b = b.id :=
          fun b _ => PF_id _ _ _
        rw [List.map_congr_left hpt2]
        exact hNr
      have haddrN : ((reindexG g1).nodes.map (fun b => b.addr)).Nodup :=
        packed_addr_nodup _ _ hpacked
      have hlook : lookupA gp.bytecodes m'.addr = some mid := by
        rw [hgpd, hdict, lookupA_nodesmap_self haddrN hm', hm'id]
      have hres : resToD gp.bytecodes ({ br with oparg := some V } : BC) =
          some mid := by
        unfold resToD
        rw [hlabel]
        dsimp only
        rw [if_pos (Int.natCast_nonneg m'.addr), Int.toNat_natCast, hlook]
      obtain ⟨hg2, -, -, -, -⟩ := apply_labels_main hNgp href
      have hrmemGp : ({ br with oparg := some V } : BC).id ∈
          gp.nodes.map (fun b => b.id) :=
        List.mem_map_of_mem _ hgprmem
      have hfind_r : findNode gp.nodes r = some ({ br with oparg := some V } : BC) := by
        have h0 := findNode_of_nodup hNgp hgprmem
        rw [← hbr'.1]
        exact h0
      have hgpmmem : PF (reindexG g1).nodes
          ((reindexG g1).nodes.map (fun b => b.id)) m' ∈ gp.nodes := by
        rw [hgp]
        exact List.mem_map_of_mem _ hm'
      refine ⟨⟨⟨delApply mid n.xrefs rb, hb'mem,
        (show (delApply mid n.xrefs rb).id = rb.id from rfl).trans hrbid, ht'⟩,
        ⟨delApply mid n.xrefs mb, hm1mem,
         (show (delApply mid n.xrefs mb).id = mb.id from rfl).trans hmbid,
         hm1x⟩⟩,
        ⟨⟨FF gp.bytecodes gp.nodes (gp.nodes.map (fun b => b.id))
            ({ br with oparg := some V } : BC), ?_, ?_, ?_⟩,
         ⟨FF gp.bytecodes gp.nodes (gp.nodes.map (fun b => b.id))
            (PF (reindexG g1).nodes
              ((reindexG g1).nodes.map (fun b => b.id)) m'), ?_, ?_, ?_⟩⟩⟩
      · rw [hg2]
        exact List.mem_map_of_mem _ hgprmem
      · rw [FF_id]
        exact hbr'.1
      · rw [FF_target, if_pos hrmemGp, hres]
      · rw [hg2]
        exact List.mem_map_of_mem _ hgpmmem
      · rw [FF_id, PF_id]
        exact hm'id
      · rw [FF_xrefs]
        refine List.mem_filter.mpr ⟨?_, decide_eq_true ?_⟩
        · rw [← hbr'.1]
          exact hrmemGp
        · unfold resOfD
          rw [hfind_r]
          dsimp only
          rw [hres, PF_id, hm'id]

/-- Witness for `C5_deletion_redirect` at `exC5`: delete the jumped-to NOP
(id 1); the jump (id 0) is redirected to the second NOP (id 2) both right
after deletion and after `refactor`. -/
theorem C5_deletion_redirect_witness :
    (exC5.nodes.map (fun b => b.id)).Nodup ∧
    (((∃ b' ∈ ((delete_node exC5 1).getD default).nodes,
        b'.id = 0 ∧ b'.target = some 2) ∧
      (∃ m1 ∈ ((delete_node exC5 1).getD default).nodes,
        m1.id = 2 ∧ 0 ∈ m1.xrefs)) ∧
     ((∃ b'' ∈ ((refactor ((delete_node exC5 1).getD default)).getD
          default).nodes,
        b''.id = 0 ∧ b''.target = some 2) ∧
      (∃ m2 ∈ ((refactor ((delete_node exC5 1).getD default)).getD
          default).nodes,
        m2.id = 2 ∧ 0 ∈ m2.xrefs))) :=
  ⟨by decide,
   C5_deletion_redirect exC5 (by decide) 1 2
     ((findNode exC5.nodes 1).getD ⟨0, 0, none, 0, none, none, []⟩)
     (by rfl) (by rfl)
     0 (by decide) (by decide)
     ((findNode exC5.nodes 0).getD ⟨0, 0, none, 0, none, none, []⟩)
     (by rfl) (Or.inl (by decide))
     ((delete_node exC5 1).getD default) (by rfl)
     ((refactor ((delete_node exC5 1).getD default)).getD default) (by rfl)⟩
